import Mathlib

/-!
Verification of a combinational-logic equivalence checker built on a SAT
decision procedure.  The development shallowly embeds the program's data
model and operations: the circuit intermediate representation with its
construction-time validation and simulator (`circuit/circuit.py`), the CNF
algebra and solver interface (`circuit/cnf.py`), the Tseitin transformation
(`transform.py`, `adder.py`), and the miter-based equivalence check
(`ec.py`).  Python's unbounded recursions (the cycle-detection DFS, the
memoized simulator, the inlining pass of `clean`) are embedded with an
explicit fuel parameter; the development proves that the chosen fuel is
never exhausted on validated circuits, so the fuel-free Python behaviour
and the embedded behaviour agree.
-/

namespace SE206

/-- Exceptions of the Python program, one constructor per distinct
exception kind that the embedded code can raise.  The four
`BrokenCircuitException` messages of `Circuit.check` get one constructor
each; `nameError` stands for the `NameError` escaping from
`Circuit.getEquation` (whose `except` handler references an unbound
variable `s`); `fuel` is the embedding artifact marking exhaustion of the
fuel that models Python's unbounded recursion. -/
inductive PyErr where
  | undefinedOutput (x : String)
  | overConstrainedInput (x : String)
  | undefinedSignal (x : String)
  | combLoop (stack : List String) (y : String)
  | nameError
  | fuel
deriving DecidableEq, Repr

/-- The binary gate operators recognised by the program: `&`, `|`, `^`.
In the source a `BinOp` node stores the pair of a Python function and its
operator string; the parser only ever creates the three matching pairs
`(operator.and_, "&")`, `(operator.or_, "|")`, `(operator.xor, "^")`,
which this enumeration represents. -/
inductive BOp where
  | and
  | or
  | xor
deriving DecidableEq, Repr

/-- The only unary operator recognised by the program: `~` (negation),
created by the parser as the pair `(operator.not_, "~")`. -/
inductive UOp where
  | not
deriving DecidableEq, Repr

/-- Evaluation of a binary gate, `BinOp.eval` in the source. -/
def BOp.eval : BOp → Bool → Bool → Bool
  | .and, a, b => a && b
  | .or, a, b => a || b
  | .xor, a, b => Bool.xor a b

/-- Evaluation of the unary gate, `UnOp.eval` in the source. -/
def UOp.eval : UOp → Bool → Bool
  | .not, a => !a

/-- The operator string (`opstr` in the source) of a binary node,
used by the Tseitin transformation's dispatch. -/
def BOp.opstr : BOp → String
  | .and => "&"
  | .or => "|"
  | .xor => "^"

/-- Circuit nodes: the `Literal`, `Variable`, `UnOp` and `BinOp` classes
of `circuit/circuit.py`.  Every node carries the integer id assigned by
`Node.__init__` from the process-wide counter `Node.__nextid__`. -/
inductive Node where
  | lit (id : Nat) (value : Bool)
  | var (id : Nat) (name : String)
  | unop (id : Nat) (op : UOp) (child : Node)
  | binop (id : Nat) (op : BOp) (left right : Node)
deriving DecidableEq, Repr

/-- `Node.getID` in the source. -/
def Node.getID : Node → Nat
  | .lit i _ => i
  | .var i _ => i
  | .unop i _ _ => i
  | .binop i _ _ _ => i

/-- `Node.support` in the source: the set of free signal names of the
subtree.  The source returns a Python set built with `|` unions; the
embedding returns a list with the same membership. -/
def Node.supportList : Node → List String
  | .lit _ _ => []
  | .var _ n => [n]
  | .unop _ _ c => c.supportList
  | .binop _ _ a b => a.supportList ++ b.supportList

/-- The `Circuit` class of `circuit/circuit.py` after construction:
`inputs` and `outputs` are the name sets built from the input/output
variable lists (embedded as lists, used with membership semantics), and
`equations` is the insertion-ordered dict from signal name to root node. -/
structure Circuit where
  name : String
  inputs : List String
  outputs : List String
  equations : List (String × Node)
deriving DecidableEq, Repr

/-- Structural well-formedness that Python guarantees by representation:
`inputs` and `outputs` are sets and `equations` is a dict, so none of
them contains a repeated name. -/
def Circuit.WF (c : Circuit) : Prop :=
  c.inputs.Nodup ∧ c.outputs.Nodup ∧ (c.equations.map Prod.fst).Nodup

instance (c : Circuit) : Decidable c.WF := by
  unfold Circuit.WF
  infer_instance

/-- First check of `Circuit.check`: every output has an equation. -/
def Circuit.firstUndefinedOutput (c : Circuit) : Option String :=
  c.outputs.find? (fun x => (c.equations.lookup x).isNone)

/-- Second check of `Circuit.check`: no input is an equation key. -/
def Circuit.firstConstrainedInput (c : Circuit) : Option String :=
  c.inputs.find? (fun x => (c.equations.lookup x).isSome)

/-- The dependency map `deps = {x: support(equations[x])}` of
`Circuit.check` (and `Circuit.clean`). -/
def depsOf (eqs : List (String × Node)) : List (String × List String) :=
  eqs.map (fun ke => (ke.1, ke.2.supportList))

/-- Membership in `signals = inputs | outputs | equations.keys()`. -/
def Circuit.isSignal (c : Circuit) (y : String) : Bool :=
  y ∈ c.inputs || y ∈ c.outputs || (c.equations.lookup y).isSome

/-- Third check of `Circuit.check`: every name in any equation's support
is a declared signal.  Returns the first offending name. -/
def Circuit.firstUndefinedSignal (c : Circuit) : Option String :=
  (depsOf c.equations).findSome?
    (fun xys => xys.2.find? (fun y => !(c.isSignal y)))

/-- First-error fold used to run the DFS `visit` on every child of a
node: Python's `for z in deps[y]: visit(z)` propagates the first raised
exception. -/
def firstErr (g : String → Except PyErr Unit) : List String → Except PyErr Unit
  | [] => .ok ()
  | z :: zs =>
    match g z with
    | .error e => .error e
    | .ok _ => firstErr g zs

/-- The recursive `visit` of `Circuit.check`'s combinational-loop
detection, with a fuel argument modelling Python's unbounded recursion.
Python mutates one path stack with push/pop; the embedding passes
`stack ++ [y]` to the children, which is the same stack discipline.
Fuel is only consumed when descending into a defined signal; the
development proves that with fuel `deps.length + 1` the `.error .fuel`
branch is unreachable. -/
def visitF (deps : List (String × List String)) : Nat → List String → String → Except PyErr Unit
  | fuel, stack, y =>
    if y ∈ stack then .error (.combLoop stack y)
    else match deps.lookup y with
      | none => .ok ()
      | some zs =>
        match fuel with
        | 0 => .error .fuel
        | f + 1 => firstErr (fun z => visitF deps f (stack ++ [y]) z) zs

/-- Fourth check of `Circuit.check`: run `visit` from every equation key
(`for x in deps.keys(): ... visit(x)`), with the empty stack each time. -/
def loopCheck (deps : List (String × List String)) : List String → Except PyErr Unit
  | [] => .ok ()
  | x :: xs =>
    match visitF deps (deps.length + 1) [] x with
    | .error e => .error e
    | .ok _ => loopCheck deps xs

/-- `Circuit.check` of the source: the four construction-time sanity
checks, raising (returning) the first failure. -/
def Circuit.check (c : Circuit) : Except PyErr Unit :=
  match c.firstUndefinedOutput with
  | some x => .error (.undefinedOutput x)
  | none =>
    match c.firstConstrainedInput with
    | some x => .error (.overConstrainedInput x)
    | none =>
      match c.firstUndefinedSignal with
      | some y => .error (.undefinedSignal y)
      | none => loopCheck (depsOf c.equations) ((depsOf c.equations).map Prod.fst)

/-- `Circuit.getEquation` of the source.  On a missing key the Python
code catches the `KeyError` and attempts
`raise BrokenCircuitException("Undefined signal '%s'" % s)`, but `s` is
not in scope in that handler, so evaluating the message itself raises
`NameError`; the embedding therefore returns `.error .nameError`, not a
broken-circuit error. -/
def Circuit.getEquation (c : Circuit) (x : String) : Except PyErr Node :=
  match c.equations.lookup x with
  | some e => .ok e
  | none => .error .nameError

/-- A value cache / input dictionary of the simulator: Python's `value`
dict.  Entries added later are consed in front, so `List.lookup` sees
the same mapping as the Python dict. -/
abbrev VMap := List (String × Bool)

/-- Structural part of the simulator's recursive `sim`: evaluation of a
node given a handler `h` for `Variable` nodes (the handler performs the
value-cache lookup and the recursion into `getEquation`).  `BinOp`
evaluates child 0 and then child 1, threading the memo dict. -/
def simTree (h : String → VMap → Except PyErr (Bool × VMap)) :
    Node → VMap → Except PyErr (Bool × VMap)
  | .lit _ b, v => .ok (b, v)
  | .var _ x, v => h x v
  | .unop _ op c, v =>
    match simTree h c v with
    | .error e => .error e
    | .ok (y, v') => .ok (op.eval y, v')
  | .binop _ op a b, v =>
    match simTree h a v with
    | .error e => .error e
    | .ok (y, v1) =>
      match simTree h b v1 with
      | .error e => .error e
      | .ok (z, v2) => .ok (op.eval y z, v2)

/-- The `Variable` case of the simulator's `sim`: try the value cache,
otherwise simulate the signal's equation (`sim(self.getEquation(x))`) and
memoize the result.  Fuel bounds the depth of the chain of
signal-equation recursions; validated circuits never exhaust it. -/
def simVar (eqs : List (String × Node)) : Nat → String → VMap → Except PyErr (Bool × VMap)
  | fuel, x, v =>
    match v.lookup x with
    | some b => .ok (b, v)
    | none =>
      match eqs.lookup x with
      | none => .error .nameError
      | some e =>
        match fuel with
        | 0 => .error .fuel
        | f + 1 =>
          match simTree (simVar eqs f) e v with
          | .error er => .error er
          | .ok (b, v') => .ok (b, (x, b) :: v')

/-- The loop `for x in signals: value[x] = sim(self.getEquation(x))` of
`Circuit.simulate`, over the keys of `equations` in dict order. -/
def simAll (eqs : List (String × Node)) (fuel : Nat) :
    List (String × Node) → VMap → Except PyErr VMap
  | [], v => .ok v
  | (x, e) :: rest, v =>
    match simTree (simVar eqs fuel) e v with
    | .error er => .error er
    | .ok (b, v') => simAll eqs fuel rest ((x, b) :: v')

/-- `Circuit.simulate` of the source: seed the value cache with the
caller's input dictionary, evaluate every defined signal, and return the
cache restricted to the defined signals
(`{s: x for (s, x) in value.items() if s in signals}`). -/
def Circuit.simulate (c : Circuit) (inputs : VMap) : Except PyErr VMap :=
  match simAll c.equations (c.equations.length + 1) c.equations inputs with
  | .error e => .error e
  | .ok v => .ok (v.filter (fun sx => (c.equations.lookup sx.1).isSome))

/-- A CNF literal: the `SatVar` class of `circuit/cnf.py` viewed through
its `(name, phase)` pair.  The class also assigns each name a global
integer id, but the id is only used for DIMACS dumping, which no claim
touches, so the embedding omits it. -/
abbrev Lit := String × Bool

/-- `SatVar(name)`: a positive-phase literal. -/
def SV (name : String) : Lit := (name, true)

/-- The `~` operator on `SatVar`: same name, flipped phase. -/
def Lit.invert (l : Lit) : Lit := (l.1, !l.2)

/-- A clause (`Clause` in `circuit/cnf.py`): an ordered list of literals,
semantically their disjunction. -/
abbrev Clause := List Lit

/-- A CNF (`Cnf` in `circuit/cnf.py`): an ordered list of clauses,
semantically their conjunction.  The Python object also caches
`variables` and `maxVar`; `variables` is recovered by `cnfVars` below and
`maxVar` concerns only the omitted DIMACS ids. -/
abbrev Cnf := List Clause

/-- The `variables` field maintained by the `Cnf` class: the set of names
of all literals of all clauses (as a list with the same membership). -/
def cnfVars (f : Cnf) : List String :=
  f.flatMap (fun c => c.map Prod.fst)

/-- A literal is true under a total assignment when the assignment gives
its name its phase. -/
def litSat (m : String → Bool) (l : Lit) : Bool :=
  m l.1 == l.2

/-- A clause is satisfied when some literal of it is true. -/
def clauseSat (m : String → Bool) (c : Clause) : Bool :=
  c.any (litSat m)

/-- A CNF is satisfied when every clause is. -/
def cnfSat (m : String → Bool) (f : Cnf) : Bool :=
  f.all (clauseSat m)

/-- The total assignment denoted by a solver assignment dictionary:
names outside the dictionary default to `false` (no claim depends on
the default). -/
def asnFun (a : List (String × Bool)) : String → Bool :=
  fun x => (a.lookup x).getD false

/-- `mk_or` of `adder.py`: the Tseitin clauses of `s <=> a | b`,
`(a | b | ~s) & (s | ~a) & (s | ~b)`. -/
def mk_or (s a b : Lit) : Cnf :=
  [[a, b, s.invert], [s, a.invert], [s, b.invert]]

/-- `mk_and` of `adder.py`: the Tseitin clauses of `s <=> a & b`,
`(~a | ~b | s) & (~s | a) & (~s | b)`. -/
def mk_and (s a b : Lit) : Cnf :=
  [[a.invert, b.invert, s], [s.invert, a], [s.invert, b]]

/-- `mk_xor` of `adder.py`: the Tseitin clauses of `s <=> a ^ b`. -/
def mk_xor (s a b : Lit) : Cnf :=
  [[s.invert, a, b], [s.invert, a.invert, b.invert], [s, a.invert, b], [s, a, b.invert]]

/-- `mk_not` of `adder.py`: the Tseitin clauses of `s <=> ~a`. -/
def mk_not (s a : Lit) : Cnf :=
  [[s, a], [s.invert, a.invert]]

/-- `mk_eq` of `adder.py`: the Tseitin clauses of `s <=> a`. -/
def mk_eq (s a : Lit) : Cnf :=
  [[s, a.invert], [s.invert, a]]

/-- The recursive helper `f` of `transform.py`: encode a subtree,
returning the literal that represents its value together with the
accumulated clauses.  A `Variable` node is represented by the prefixed
signal name with no clauses; every other node gets the auxiliary
variable `prefix ++ "s" ++ str(node.getID())` and its gate clauses. -/
def fEnc (pfx : String) : Node → Lit × Cnf
  | .var _ nm => (SV (pfx ++ nm), [])
  | .lit i b =>
    let s := SV (pfx ++ "s" ++ toString i)
    (s, [[if b then s else s.invert]])
  | .unop i op c =>
    let s := SV (pfx ++ "s" ++ toString i)
    let (a, cnf1) := fEnc pfx c
    match op with
    | .not => (s, cnf1 ++ mk_not s a)
  | .binop i op x y =>
    let s := SV (pfx ++ "s" ++ toString i)
    let (a, cnf1) := fEnc pfx x
    let (b, cnf2) := fEnc pfx y
    let gate :=
      match op with
      | .and => mk_and s a b
      | .xor => mk_xor s a b
      | .or => mk_or s a b
    (s, cnf1 ++ cnf2 ++ gate)

/-- The clauses that `transform` emits for one equation `key = node`:
the signal variable `prefix ++ key` is tied to the root.  A `Variable`
root uses `mk_eq`, a `Literal` root a unit clause, and a gate root
reuses the signal variable as the gate output. -/
def transformEq (pfx : String) (key : String) (node : Node) : Cnf :=
  let s := SV (pfx ++ key)
  match node with
  | .var _ nm => mk_eq s (SV (pfx ++ nm))
  | .lit _ b => [[if b then s else s.invert]]
  | .unop _ op c =>
    let (a, cnf1) := fEnc pfx c
    match op with
    | .not => cnf1 ++ mk_not s a
  | .binop _ op x y =>
    let (a, cnf1) := fEnc pfx x
    let (b, cnf2) := fEnc pfx y
    let gate :=
      match op with
      | .and => mk_and s a b
      | .xor => mk_xor s a b
      | .or => mk_or s a b
    cnf1 ++ cnf2 ++ gate

/-- `transform` of `transform.py`: the Tseitin transformation of a
circuit, accumulating the per-equation clauses over `c.getSignals()` in
dict order. -/
def transform (c : Circuit) (pfx : String) : Cnf :=
  c.equations.foldl (fun acc ke => acc ++ transformEq pfx ke.1 ke.2) []

/-- The `Solution` class of `circuit/cnf.py`: either UNSAT, or SAT with
the assignment dictionary built by `Solver.solve` over `cnf.variables`. -/
inductive Solution where
  | unsat
  | sat (assignment : List (String × Bool))
deriving DecidableEq, Repr

/-- `Solution.__invert__`: the blocking clause.  Returns `None` for an
UNSAT solution; otherwise folds over `assignment.items()`, accumulating
`~SatVar(x)` for a true entry and `SatVar(x)` for a false one, starting
from `None` (so an empty assignment also yields `None`). -/
def Solution.invert : Solution → Option Clause
  | .unsat => none
  | .sat asn =>
    asn.foldl
      (fun bc xb =>
        let l : Lit := if xb.2 then (SV xb.1).invert else SV xb.1
        match bc with
        | none => some [l]
        | some c => some (c ++ [l]))
      none

/-- The contract of the solver binding (`Solver.solve` backed by
Minisat, an external collaborator): on SAT the returned dictionary is
defined exactly on `cnf.variables` and satisfies the formula; on UNSAT
no total assignment satisfies it. -/
structure SolverOk (solve : Cnf → Solution) : Prop where
  sat_sound : ∀ f a, solve f = .sat a → cnfSat (asnFun a) f = true
  sat_dom : ∀ f a, solve f = .sat a → ∀ x, (a.lookup x).isSome ↔ x ∈ cnfVars f
  unsat_sound : ∀ f, solve f = .unsat → ∀ m : String → Bool, cnfSat m f = false

/-- Python set equality on the name lists (`c1.getInputs() ==
c2.getInputs()` compares the underlying sets extensionally). -/
def setEqStr (l1 l2 : List String) : Bool :=
  l1.all (fun x => x ∈ l2) && l2.all (fun x => x ∈ l1)

/-- The output-disagreement loop of `check` in `ec.py` for the case of
two or more outputs: `for i, output in enumerate(outputs)` emits the
XOR of the two prefixed copies of each output, and from `i = 1` on an OR
gate chaining the accumulated disagreement, the last OR writing to the
miter output `s`.  `os0` is `outputs[0]` and `n = len(outputs)`. -/
def miterLoop (s : Lit) (os0 : String) (n : Nat) : Nat → List String → Cnf
  | _, [] => []
  | i, o :: rest =>
    let xorO := SV ("mitter_xor_" ++ o)
    let base := mk_xor xorO (SV ("c1_" ++ o)) (SV ("c2_" ++ o))
    let extra :=
      if i == 1 then
        let ithOr := if i + 1 == n then s else SV "mitter_or_1"
        mk_or ithOr (SV ("mitter_xor_" ++ os0)) xorO
      else if 1 < i then
        let ithOr := if i + 1 == n then s else SV ("mitter_or_" ++ toString i)
        mk_or ithOr (SV ("mitter_or_" ++ toString (i - 1))) xorO
      else []
    base ++ extra ++ miterLoop s os0 n (i + 1) rest

/-- The miter CNF built by `check` of `ec.py` after the interface
pre-check: both Tseitin encodings, the shared-input equalities, the
output-disagreement network and the unit clause asserting the miter
output. -/
def miterCnf (c1 c2 : Circuit) : Cnf :=
  let cnf := transform c1 "c1_" ++ transform c2 "c2_"
  let cnf := cnf ++ c1.inputs.foldl
    (fun acc x =>
      acc ++ mk_eq (SV x) (SV ("c1_" ++ x)) ++ mk_eq (SV x) (SV ("c2_" ++ x))) []
  let os := c1.outputs
  let s := SV "mitter_output"
  let cnf := cnf ++
    (if os.length == 1 then
      mk_xor s (SV ("c1_" ++ os.headD "")) (SV ("c2_" ++ os.headD ""))
    else miterLoop s (os.headD "") os.length 0 os)
  cnf ++ [[s]]

/-- `check` of `ec.py`, parameterised by the solver binding: reject on
an input/output interface mismatch with `(False, None)` before any
solver call, otherwise solve the miter CNF and report `(True, None)` on
UNSAT or `(False, assignment)` on SAT. -/
def check (solve : Cnf → Solution) (c1 c2 : Circuit) :
    Bool × Option (List (String × Bool)) :=
  if !(setEqStr c1.inputs c2.inputs && setEqStr c1.outputs c2.outputs) then
    (false, none)
  else
    match solve (miterCnf c1 c2) with
    | .unsat => (true, none)
    | .sat asn => (false, some asn)

/-- The consumers of a signal `x`: the equation keys whose support
mentions `x`.  This is the set `fanout[x]` built by `Circuit.clean`
(a set of key names; keys of a dict are distinct, so the list length is
its cardinality). -/
def consumersOf (eqs : List (String × Node)) (x : String) : List String :=
  (eqs.filter (fun ke => ke.2.supportList.contains x)).map Prod.fst

/-- The `collapse` set of `Circuit.clean`: signals with fanout exactly
one, minus the inputs. -/
def collapseList (c : Circuit) : List String :=
  (c.outputs ++ c.equations.map Prod.fst ++ c.inputs).filter
    (fun x => (consumersOf c.equations x).length == 1 && !(c.inputs.contains x))

/-- The recursive `subst` of `Circuit.clean`: replace every `Variable`
node naming a collapsed signal by the (recursively substituted) defining
expression of that signal, read from the current equations dict.  Fuel
bounds the depth of the inlining chain; validated circuits never exhaust
it. -/
def substF (eqs : List (String × Node)) (collapse : List String) : Nat → Node → Option Node
  | _, .lit i b => some (.lit i b)
  | fuel, .var i y =>
    if y ∈ collapse then
      match eqs.lookup y with
      | none => none
      | some e =>
        match fuel with
        | 0 => none
        | f + 1 => substF eqs collapse f e
    else some (.var i y)
  | fuel, .unop i op c =>
    match substF eqs collapse fuel c with
    | none => none
    | some c' => some (.unop i op c')
  | fuel, .binop i op a b =>
    match substF eqs collapse fuel a with
    | none => none
    | some a' =>
      match substF eqs collapse fuel b with
      | none => none
      | some b' => some (.binop i op a' b')

/-- In-place update of one key's equation
(`self.equations[x] = subst(e)`): dicts keep the key's position. -/
def updateEq (eqs : List (String × Node)) (k : String) (e : Node) : List (String × Node) :=
  eqs.map (fun ke => if ke.1 = k then (k, e) else ke)

/-- The collapse loop of `Circuit.clean`:
`for x in self.getSignals(): self.equations[x] = subst(self.equations[x])`,
each iteration reading and updating the current equations dict. -/
def substLoop (collapse : List String) (fuel : Nat) :
    List String → List (String × Node) → Option (List (String × Node))
  | [], eqs => some eqs
  | k :: ks, eqs =>
    match eqs.lookup k with
    | none => none
    | some e =>
      match substF eqs collapse fuel e with
      | none => none
      | some e' => substLoop collapse fuel ks (updateEq eqs k e')

/-- One composition step of the dead-code reachability loop:
`frontier = {(x, w) for x, y in closure for q, w in closure if q == y}`. -/
def relComp (cl : Finset (String × String)) : Finset (String × String) :=
  cl.biUnion (fun xy => (cl.filter (fun qw => qw.1 = xy.2)).image (fun qw => (xy.1, qw.2)))

/-- The `while True` fixed-point loop of `Circuit.clean` computing the
transitive closure of the dependency edges.  The Python loop always
terminates because the closure grows inside a finite universe; the fuel
passed by `clean` is provably sufficient. -/
def iterClosure : Nat → Finset (String × String) → Finset (String × String)
  | 0, cl => cl
  | f + 1, cl =>
    let nxt := cl ∪ relComp cl
    if nxt = cl then cl else iterClosure f nxt

/-- `Circuit.clean` of the source: inline every signal with fanout one
into its sole consumer, then delete the signals not reachable from any
output in the recomputed dependency graph.  Returns the cleaned circuit,
or `none` on fuel exhaustion of the inlining recursion (unreachable on
validated circuits). -/
def Circuit.clean (c : Circuit) : Option Circuit :=
  let collapse := collapseList c
  match substLoop collapse (c.equations.length + 1) (c.equations.map Prod.fst) c.equations with
  | none => none
  | some eqs2 =>
    let edges : Finset (String × String) :=
      ((depsOf eqs2).flatMap (fun xys => xys.2.map (fun y => (xys.1, y)))).toFinset
    let u := edges.image Prod.fst ∪ edges.image Prod.snd
    let closure := iterClosure (u.card * u.card + 1) edges
    let live := (closure.filter (fun xy => xy.1 ∈ c.outputs)).image Prod.snd
    let eqs3 := eqs2.filter
      (fun ke => decide (ke.1 ∈ live ∨ ke.1 ∈ c.inputs ∨ ke.1 ∈ c.outputs))
    some { c with equations := eqs3 }

/-! ### A brute-force solver witnessing the solver contract

The SAT back-end (Minisat behind `Solver.solve`) is an external
collaborator specified only by its contract.  To exercise the theorems
on concrete circuits the development provides an executable solver that
provably satisfies the contract: enumerate every assignment over the
formula's variables. -/

def allAsn : List String → List (List (String × Bool))
  | [] => [[]]
  | x :: xs => (allAsn xs).flatMap (fun a => [(x, true) :: a, (x, false) :: a])

def bruteSolve (f : Cnf) : Solution :=
  match (allAsn (cnfVars f).dedup).find? (fun a => cnfSat (asnFun a) f) with
  | some a => .sat a
  | none => .unsat

/-! ### Auxiliary variable names of the Tseitin encoding -/

/-- The auxiliary CNF variable names (`"s" ++ str(node.getID())`,
before prefixing) that the transformation's helper `f` allocates for the
gate and constant nodes of a tree. -/
def auxNamesOf : Node → List String
  | .var _ _ => []
  | .lit i _ => ["s" ++ toString i]
  | .unop i _ c => auxNamesOf c ++ ["s" ++ toString i]
  | .binop i _ a b => auxNamesOf a ++ auxNamesOf b ++ ["s" ++ toString i]

/-- All auxiliary names allocated when transforming a circuit: those of
the gate and constant nodes strictly below an equation root (the roots
themselves reuse the signal variables). -/
def circuitAuxNames (c : Circuit) : List String :=
  c.equations.flatMap (fun ke =>
    match ke.2 with
    | .var _ _ => []
    | .lit _ _ => []
    | .unop _ _ ch => auxNamesOf ch
    | .binop _ _ a b => auxNamesOf a ++ auxNamesOf b)

/-! ### Concrete circuits used to exercise the theorems -/

/-- `o = a & a`, a minimal valid circuit. -/
def exAnd : Circuit :=
  { name := "exAnd", inputs := ["a"], outputs := ["o"],
    equations := [("o", .binop 0 .and (.var 1 "a") (.var 2 "a"))] }

/-- `o = a`: the identity circuit. -/
def exId : Circuit :=
  { name := "exId", inputs := ["a"], outputs := ["o"],
    equations := [("o", .var 3 "a")] }

/-- `o = ~a`: the inverter, disagreeing with `exId` on every input. -/
def exNot : Circuit :=
  { name := "exNot", inputs := ["a"], outputs := ["o"],
    equations := [("o", .unop 4 .not (.var 5 "a"))] }

/-- A circuit with a combinational loop (`w = w & a`) that passes the
first three validation checks. -/
def exCyc : Circuit :=
  { name := "exCyc", inputs := ["a"], outputs := ["o"],
    equations := [("o", .var 20 "w"), ("w", .binop 21 .and (.var 22 "w") (.var 23 "a"))] }

/-- A valid circuit with an input `b` that no equation references. -/
def exUnused : Circuit :=
  { name := "exUnused", inputs := ["a", "b"], outputs := ["o"],
    equations := [("o", .var 6 "a")] }

/-- A valid circuit whose gate node has id `0`, so the Tseitin helper's
auxiliary name `s0` collides with the input named `s0`. -/
def exCollide : Circuit :=
  { name := "exCollide", inputs := ["a", "s0"], outputs := ["o"],
    equations := [("o", .binop 3 .and (.unop 0 .not (.var 1 "a")) (.var 2 "s0"))] }

/-- A circuit with no inputs, no outputs and no equations: it passes
every validation check vacuously. -/
def exEmpty : Circuit :=
  { name := "exEmpty", inputs := [], outputs := [], equations := [] }

/-- A circuit with two inputs whose sole output feeds from one of them;
interface differs from `exAnd` (used for the interface-mismatch check). -/
def exTwoIn : Circuit :=
  { name := "exTwoIn", inputs := ["a", "c"], outputs := ["o"],
    equations := [("o", .var 7 "a")] }

/-! ### Proof-level definitions

The following definitions are scaffolding for the proofs: the
dependency relation walked by the cycle-detection DFS, a depth bound on
signal-recursion chains, the simulator's value semantics with the memo
dict dropped, and the invariants of the memoized simulator. -/

/-- One edge of the signal-dependency graph that `Circuit.check` walks:
`x` is a defined signal and `y` occurs in the support of its equation. -/
def dep (deps : List (String × List String)) (x y : String) : Prop :=
  ∃ zs, deps.lookup x = some zs ∧ y ∈ zs

/-- `DepthLe eqs x n`: every chain of signal-equation recursions
starting at `x` has depth at most `n`. -/
inductive DepthLe (eqs : List (String × Node)) : String → Nat → Prop where
  | leaf (x : String) (n : Nat) : eqs.lookup x = none → DepthLe eqs x n
  | node (x : String) (e : Node) (n : Nat) : eqs.lookup x = some e →
      (∀ y ∈ e.supportList, DepthLe eqs y n) → DepthLe eqs x (n + 1)

/-- The simulator's recursion with the memo dict dropped: the value of
a node under a fixed partial input assignment, recursing into equations
with fuel-bounded depth.  This is the reference denotation against which
the memoized simulator and the Tseitin encoding are proved correct. -/
def evalTreeF (h : String → Option Bool) : Node → Option Bool
  | .lit _ b => some b
  | .var _ x => h x
  | .unop _ op c =>
    match evalTreeF h c with
    | none => none
    | some y => some (op.eval y)
  | .binop _ op a b =>
    match evalTreeF h a, evalTreeF h b with
    | some y, some z => some (op.eval y z)
    | _, _ => none

def evalVarF (eqs : List (String × Node)) (inp : String → Option Bool) :
    Nat → String → Option Bool
  | fuel, x =>
    match inp x with
    | some b => some b
    | none =>
      match eqs.lookup x with
      | none => none
      | some e =>
        match fuel with
        | 0 => none
        | f + 1 => evalTreeF (evalVarF eqs inp f) e

/-- Closed support: every name in any equation's support is either an
input (has a value in `inp`) or a defined signal. -/
def ClosedSupp (eqs : List (String × Node)) (inp : String → Option Bool) : Prop :=
  ∀ k e, eqs.lookup k = some e →
    ∀ y ∈ e.supportList, (inp y).isSome ∨ (eqs.lookup y).isSome

/-- The value cache only grows (memoization never changes an entry). -/
def LookupMono (v v' : VMap) : Prop :=
  ∀ z c, v.lookup z = some c → v'.lookup z = some c

/-- Invariant of the simulator's value cache relative to the initial
input dictionary `inp` (as a partial function) and the reference fuel
`big`: the cache agrees with `inp` wherever `inp` is defined, and every
cached value is the reference value of its signal. -/
def InvV (eqs : List (String × Node)) (inp : String → Option Bool) (big : Nat)
    (v : VMap) : Prop :=
  (∀ x, (inp x).isSome → v.lookup x = inp x) ∧
  (∀ x b, v.lookup x = some b → evalVarF eqs inp big x = some b)

/-- The assignment of auxiliary variables used to build a satisfying
assignment of the Tseitin CNF: each gate or constant node's auxiliary
name is mapped to the value of its subtree under the handler `h`. -/
def auxAsnOf (pfx : String) (h : String → Option Bool) : Node → List (String × Bool)
  | .var _ _ => []
  | .lit i b => [(pfx ++ "s" ++ toString i, b)]
  | .unop i op c =>
    auxAsnOf pfx h c ++
      [(pfx ++ "s" ++ toString i, (evalTreeF h (.unop i op c)).getD false)]
  | .binop i op a b =>
    auxAsnOf pfx h a ++ auxAsnOf pfx h b ++
      [(pfx ++ "s" ++ toString i, (evalTreeF h (.binop i op a b)).getD false)]

/-- The auxiliary-variable assignment for a whole circuit: entries for
the gate and constant nodes strictly below each equation root, mirroring
the allocation pattern of `transform`. -/
def circuitAuxAsn (c : Circuit) (pfx : String) (h : String → Option Bool) :
    List (String × Bool) :=
  c.equations.flatMap (fun ke =>
    match ke.2 with
    | .var _ _ => []
    | .lit _ _ => []
    | .unop _ _ ch => auxAsnOf pfx h ch
    | .binop _ _ a b => auxAsnOf pfx h a ++ auxAsnOf pfx h b)

/-! ### Association-list lemmas -/

theorem lookup_cons_self {α : Type} (l : List (String × α)) (x : String) (a : α) :
    ((x, a) :: l).lookup x = some a := by
  have hx : (x == x) = true := beq_self_eq_true x
  simp [List.lookup, hx]

theorem lookup_cons_ne {α : Type} (l : List (String × α)) {x k : String} (a : α)
    (h : x ≠ k) : ((k, a) :: l).lookup x = l.lookup x := by
  have hx : (x == k) = false := beq_eq_false_iff_ne.2 h
  simp [List.lookup, hx]

theorem lookup_eq_none_iff {α : Type} (l : List (String × α)) (x : String) :
    l.lookup x = none ↔ x ∉ l.map Prod.fst := by
  induction l with
  | nil => simp [List.lookup]
  | cons p l ih =>
    obtain ⟨k, a⟩ := p
    by_cases h : x = k
    · subst h
      simp [lookup_cons_self]
    · rw [lookup_cons_ne _ _ h]
      simp [h, ih]

theorem lookup_isSome_iff {α : Type} (l : List (String × α)) (x : String) :
    (l.lookup x).isSome ↔ x ∈ l.map Prod.fst := by
  have h := lookup_eq_none_iff l x
  cases hl : l.lookup x
  · rw [hl] at h
    simpa using h.1 rfl
  · rw [hl] at h
    simp only [Option.isSome_some, true_iff]
    by_contra hmem
    exact Option.noConfusion (h.2 hmem)

theorem lookup_mem {α : Type} {l : List (String × α)} {x : String} {a : α}
    (h : l.lookup x = some a) : (x, a) ∈ l := by
  induction l with
  | nil => simp [List.lookup] at h
  | cons p l ih =>
    obtain ⟨k, b⟩ := p
    by_cases hk : x = k
    · subst hk
      rw [lookup_cons_self] at h
      cases h
      exact List.mem_cons_self _ _
    · rw [lookup_cons_ne _ _ hk] at h
      exact List.mem_cons_of_mem _ (ih h)

theorem lookup_of_mem_nodup {α : Type} {l : List (String × α)} {x : String} {a : α}
    (hnd : (l.map Prod.fst).Nodup) (h : (x, a) ∈ l) : l.lookup x = some a := by
  induction l with
  | nil => simp at h
  | cons p l ih =>
    obtain ⟨k, b⟩ := p
    simp only [List.map_cons, List.nodup_cons] at hnd
    rcases List.mem_cons.1 h with h1 | h1
    · cases h1
      exact lookup_cons_self _ _ _
    · have hxk : x ≠ k := by
        intro he
        subst he
        exact hnd.1 (List.mem_map.2 ⟨(x, a), h1, rfl⟩)
      rw [lookup_cons_ne _ _ hxk]
      exact ih hnd.2 h1

/-- `lookup` into the dependency map built by `depsOf`. -/
theorem lookup_depsOf (eqs : List (String × Node)) (x : String) :
    (depsOf eqs).lookup x = (eqs.lookup x).map Node.supportList := by
  induction eqs with
  | nil => simp [depsOf, List.lookup]
  | cons p l ih =>
    obtain ⟨k, e⟩ := p
    by_cases h : x = k
    · subst h
      simp only [depsOf, List.map_cons]
      rw [lookup_cons_self, lookup_cons_self]
      rfl
    · simp only [depsOf, List.map_cons] at *
      rw [lookup_cons_ne _ _ h, lookup_cons_ne _ _ h, ih]

theorem depsOf_keys (eqs : List (String × Node)) :
    (depsOf eqs).map Prod.fst = eqs.map Prod.fst := by
  simp [depsOf]

/-! ### The dependency relation and the cycle-detection DFS -/

theorem dep_depsOf_iff (eqs : List (String × Node)) (x y : String) :
    dep (depsOf eqs) x y ↔ ∃ e, eqs.lookup x = some e ∧ y ∈ e.supportList := by
  unfold dep
  rw [lookup_depsOf]
  cases h : eqs.lookup x <;> simp

theorem firstErr_ok_iff (g : String → Except PyErr Unit) (zs : List String) :
    firstErr g zs = .ok () ↔ ∀ z ∈ zs, g z = .ok () := by
  induction zs with
  | nil => simp [firstErr]
  | cons z zs ih =>
    simp only [firstErr]
    cases h : g z with
    | error e => simp [h]
    | ok u =>
      cases u
      simp [h, ih]

theorem except_error_of_ne_ok {e : Except PyErr Unit} (h : e ≠ .ok ()) :
    ∃ er, e = .error er := by
  cases e with
  | error er => exact ⟨er, rfl⟩
  | ok u => cases u; exact absurd rfl h

/-- If some name on the DFS stack is reachable from `y`, the `visit`
call on `y` raises (for every fuel; insufficient fuel also raises). -/
theorem visitF_error_of_reaches_stack (deps : List (String × List String))
    {y w : String} (hpath : Relation.ReflTransGen (dep deps) y w) :
    ∀ stack fuel, w ∈ stack → ∃ e, visitF deps fuel stack y = .error e := by
  induction hpath using Relation.ReflTransGen.head_induction_on with
  | refl =>
    intro stack fuel hw
    exact ⟨.combLoop stack w, by rw [visitF, if_pos hw]⟩
  | head hstep _ ih =>
    rename_i a c _
    intro stack fuel hw
    by_cases hmem : a ∈ stack
    · exact ⟨.combLoop stack a, by rw [visitF, if_pos hmem]⟩
    · obtain ⟨zs, hzs, hc⟩ := hstep
      rw [visitF, if_neg hmem, hzs]
      cases fuel with
      | zero => exact ⟨.fuel, rfl⟩
      | succ f =>
        apply except_error_of_ne_ok
        intro hok
        have hcall := (firstErr_ok_iff _ zs).1 hok c hc
        obtain ⟨e, he⟩ := ih (stack ++ [a]) f (by simp [hw])
        rw [he] at hcall
        exact Except.noConfusion hcall

/-- A signal lying on a dependency cycle makes `visit` raise, whatever
the stack and fuel. -/
theorem visitF_error_of_cycle (deps : List (String × List String))
    {y : String} (hcyc : Relation.TransGen (dep deps) y y) :
    ∀ stack fuel, ∃ e, visitF deps fuel stack y = .error e := by
  intro stack fuel
  by_cases hmem : y ∈ stack
  · exact ⟨.combLoop stack y, by rw [visitF, if_pos hmem]⟩
  · obtain ⟨c, hstep, hpath⟩ := (Relation.TransGen.head'_iff).1 hcyc
    obtain ⟨zs, hzs, hc⟩ := hstep
    rw [visitF, if_neg hmem, hzs]
    cases fuel with
    | zero => exact ⟨.fuel, rfl⟩
    | succ f =>
      apply except_error_of_ne_ok
      intro hok
      have hcall := (firstErr_ok_iff _ zs).1 hok c hc
      obtain ⟨e, he⟩ := visitF_error_of_reaches_stack deps hpath (stack ++ [y]) f (by simp)
      rw [he] at hcall
      exact Except.noConfusion hcall

theorem firstErr_ok_or_combLoop (g : String → Except PyErr Unit) (zs : List String)
    (h : ∀ z ∈ zs, g z = .ok () ∨ ∃ st w, g z = .error (.combLoop st w)) :
    firstErr g zs = .ok () ∨ ∃ st w, firstErr g zs = .error (.combLoop st w) := by
  induction zs with
  | nil => left; rfl
  | cons z zs ih =>
    rcases h z (List.mem_cons_self _ _) with hz | ⟨st, w, hz⟩
    · have := ih (fun a ha => h a (List.mem_cons_of_mem _ ha))
      simpa [firstErr, hz] using this
    · right
      exact ⟨st, w, by simp [firstErr, hz]⟩

/-- With fuel exceeding the number of unvisited defined signals, `visit`
never exhausts its fuel: it either returns or raises a
combinational-loop error. -/
theorem visitF_ok_or_combLoop (deps : List (String × List String)) :
    ∀ fuel stack y, stack.Nodup → (∀ s ∈ stack, s ∈ deps.map Prod.fst) →
    ((deps.map Prod.fst).toFinset \ stack.toFinset).card < fuel →
    visitF deps fuel stack y = .ok () ∨
      ∃ st w, visitF deps fuel stack y = .error (.combLoop st w) := by
  intro fuel
  induction fuel with
  | zero => intro stack y _ _ hcard; omega
  | succ f ih =>
    intro stack y hnd hkeys hcard
    by_cases hmem : y ∈ stack
    · right
      exact ⟨stack, y, by rw [visitF, if_pos hmem]⟩
    · cases hzs : deps.lookup y with
      | none =>
        left
        rw [visitF, if_neg hmem, hzs]
      | some zs =>
        rw [visitF, if_neg hmem, hzs]
        have hyK : y ∈ deps.map Prod.fst :=
          (lookup_isSome_iff deps y).1 (by rw [hzs]; rfl)
        have hysd : y ∈ (deps.map Prod.fst).toFinset \ stack.toFinset :=
          Finset.mem_sdiff.2 ⟨List.mem_toFinset.2 hyK, fun hc => hmem (List.mem_toFinset.1 hc)⟩
        apply firstErr_ok_or_combLoop
        intro z _
        apply ih (stack ++ [y]) z
        · simp [List.nodup_append, hnd, hmem]
        · intro s hs
          rcases List.mem_append.1 hs with hs | hs
          · exact hkeys s hs
          · simp only [List.mem_singleton] at hs
            subst hs
            exact hyK
        · have heq : (deps.map Prod.fst).toFinset \ (stack ++ [y]).toFinset =
              ((deps.map Prod.fst).toFinset \ stack.toFinset).erase y := by
            ext a
            simp only [Finset.mem_sdiff, List.toFinset_append, Finset.mem_union,
              List.toFinset_cons, List.toFinset_nil, insert_emptyc_eq, Finset.mem_insert,
              Finset.mem_singleton, Finset.mem_erase]
            constructor
            · rintro ⟨ha, hb⟩
              exact ⟨fun he => hb (Or.inr he), ha, fun hc => hb (Or.inl hc)⟩
            · rintro ⟨ha, hb, hc⟩
              exact ⟨hb, fun hd => hd.elim hc ha⟩
          rw [heq, Finset.card_erase_of_mem hysd]
          have hpos : 0 < ((deps.map Prod.fst).toFinset \ stack.toFinset).card :=
            Finset.card_pos.2 ⟨y, hysd⟩
          omega

theorem loopCheck_ok_forall (deps : List (String × List String)) (xs : List String)
    (h : loopCheck deps xs = .ok ()) :
    ∀ x ∈ xs, visitF deps (deps.length + 1) [] x = .ok () := by
  induction xs with
  | nil => intro x hx; simp at hx
  | cons x xs ih =>
    intro a ha
    rw [loopCheck] at h
    rcases List.mem_cons.1 ha with ha | ha
    · subst ha
      cases hv : visitF deps (deps.length + 1) [] a with
      | error e => rw [hv] at h; exact Except.noConfusion h
      | ok u => cases u; rfl
    · cases hv : visitF deps (deps.length + 1) [] x with
      | error e => rw [hv] at h; exact Except.noConfusion h
      | ok u => cases u; rw [hv] at h; exact ih h a ha

theorem loopCheck_combLoop (deps : List (String × List String)) (xs : List String)
    (hall : ∀ x ∈ xs, visitF deps (deps.length + 1) [] x = .ok () ∨
      ∃ st w, visitF deps (deps.length + 1) [] x = .error (.combLoop st w))
    (hcyc : ∃ c ∈ xs, Relation.TransGen (dep deps) c c) :
    ∃ st w, loopCheck deps xs = .error (.combLoop st w) := by
  induction xs with
  | nil => simp at hcyc
  | cons x xs ih =>
    obtain ⟨c, hcmem, hc⟩ := hcyc
    rcases hall x (List.mem_cons_self _ _) with hx | ⟨st, w, hx⟩
    · rcases List.mem_cons.1 hcmem with hcx | hcx
      · subst hcx
        obtain ⟨e, he⟩ := visitF_error_of_cycle deps hc [] (deps.length + 1)
        rw [he] at hx
        exact Except.noConfusion hx
      · have := ih (fun a ha => hall a (List.mem_cons_of_mem _ ha)) ⟨c, hcx, hc⟩
        simpa [loopCheck, hx] using this
    · exact ⟨st, w, by simp [loopCheck, hx]⟩

/-- Decomposition of a successful `Circuit.check` into its four parts. -/
theorem check_ok_parts (c : Circuit) (h : c.check = .ok ()) :
    c.firstUndefinedOutput = none ∧ c.firstConstrainedInput = none ∧
      c.firstUndefinedSignal = none ∧
      loopCheck (depsOf c.equations) ((depsOf c.equations).map Prod.fst) = .ok () := by
  rw [Circuit.check] at h
  cases h1 : c.firstUndefinedOutput with
  | some x => rw [h1] at h; exact Except.noConfusion h
  | none =>
    rw [h1] at h
    cases h2 : c.firstConstrainedInput with
    | some x => rw [h2] at h; exact Except.noConfusion h
    | none =>
      rw [h2] at h
      cases h3 : c.firstUndefinedSignal with
      | some x => rw [h3] at h; exact Except.noConfusion h
      | none =>
        rw [h3] at h
        exact ⟨rfl, rfl, rfl, h⟩

/-- A validated circuit's dependency graph has no cycle. -/
theorem noCycle_of_check_ok (c : Circuit) (h : c.check = .ok ()) :
    ¬ ∃ x, Relation.TransGen (dep (depsOf c.equations)) x x := by
  rintro ⟨x, hx⟩
  have hparts := check_ok_parts c h
  have hloop := hparts.2.2.2
  have hxkey : x ∈ (depsOf c.equations).map Prod.fst := by
    obtain ⟨z, hstep, _⟩ := (Relation.TransGen.head'_iff).1 hx
    obtain ⟨zs, hzs, _⟩ := hstep
    exact (lookup_isSome_iff _ x).1 (by rw [hzs]; rfl)
  have hok := loopCheck_ok_forall _ _ hloop x hxkey
  obtain ⟨e, he⟩ := visitF_error_of_cycle (depsOf c.equations) hx [] ((depsOf c.equations).length + 1)
  rw [he] at hok
  exact Except.noConfusion hok

/-- A circuit passing the first three checks but whose dependency graph
has a cycle makes `Circuit.check` raise a combinational-loop error. -/
theorem check_combLoop (c : Circuit) (h1 : c.firstUndefinedOutput = none)
    (h2 : c.firstConstrainedInput = none) (h3 : c.firstUndefinedSignal = none)
    (hcyc : ∃ x, Relation.TransGen (dep (depsOf c.equations)) x x) :
    ∃ st w, c.check = .error (.combLoop st w) := by
  rw [Circuit.check, h1, h2, h3]
  obtain ⟨x, hx⟩ := hcyc
  apply loopCheck_combLoop
  · intro a _
    apply visitF_ok_or_combLoop (depsOf c.equations) _ [] a List.nodup_nil
      (by intro s hs; simp at hs)
    have hle : ((depsOf c.equations).map Prod.fst).toFinset.card ≤
        (depsOf c.equations).length := by
      calc ((depsOf c.equations).map Prod.fst).toFinset.card
          ≤ ((depsOf c.equations).map Prod.fst).length := List.toFinset_card_le _
        _ = (depsOf c.equations).length := List.length_map _ _
    simpa using Nat.lt_succ_of_le hle
  · refine ⟨x, ?_, hx⟩
    obtain ⟨z, hstep, _⟩ := (Relation.TransGen.head'_iff).1 hx
    obtain ⟨zs, hzs, _⟩ := hstep
    exact (lookup_isSome_iff _ x).1 (by rw [hzs]; rfl)

/-- C6.  Cycle detection is complete: a circuit description passing the
outputs-defined, inputs-unconstrained and closed-support checks whose
signal-dependency graph has a cycle over defined signals makes
`Circuit.check` (hence construction) raise the combinational-loop
`BrokenCircuitException`; consequently a circuit whose construction
succeeded has an acyclic dependency graph. -/
theorem claim_C6_cycle_detection_complete (c : Circuit) :
    (c.firstUndefinedOutput = none → c.firstConstrainedInput = none →
      c.firstUndefinedSignal = none →
      (∃ x, Relation.TransGen (dep (depsOf c.equations)) x x) →
      ∃ st w, c.check = .error (.combLoop st w)) ∧
    (c.check = .ok () → ¬ ∃ x, Relation.TransGen (dep (depsOf c.equations)) x x) :=
  ⟨fun h1 h2 h3 hcyc => check_combLoop c h1 h2 h3 hcyc,
   fun h => noCycle_of_check_ok c h⟩

/-! ### Depth bounds from acyclicity

`DepthLe eqs x n` bounds the length of every chain of signal-equation
recursions starting at `x`.  On an acyclic dependency graph every signal
admits the bound given by the number of defined signals, which is what
makes the fuel chosen by `Circuit.simulate` (and `Circuit.clean`)
sufficient. -/

theorem DepthLe.mono {eqs : List (String × Node)} {x : String} {n m : Nat}
    (h : DepthLe eqs x n) (hnm : n ≤ m) : DepthLe eqs x m := by
  induction h generalizing m with
  | leaf x n hx => exact .leaf x m hx
  | node x e n hx _ ih =>
    cases m with
    | zero => omega
    | succ m' => exact .node x e m' hx (fun y hy => ih y hy (by omega))

theorem depthLe_node_inv {eqs : List (String × Node)} {x : String} {m : Nat} {e : Node}
    (h : DepthLe eqs x m) (hx : eqs.lookup x = some e) :
    ∃ n, m = n + 1 ∧ ∀ y ∈ e.supportList, DepthLe eqs y n := by
  cases h with
  | leaf x n hn => rw [hn] at hx; exact Option.noConfusion hx
  | node x e' n hn hall =>
    rw [hn] at hx
    cases hx
    exact ⟨n, rfl, hall⟩

/-- On an acyclic dependency graph, every signal's recursion depth is
bounded by the number of defined signals. -/
theorem depthLe_of_noCycle (eqs : List (String × Node))
    (hnc : ¬ ∃ x, Relation.TransGen (dep (depsOf eqs)) x x) :
    ∀ x, DepthLe eqs x (eqs.map Prod.fst).toFinset.card := by
  have haux : ∀ n (S : Finset String) x, S ⊆ (eqs.map Prod.fst).toFinset →
      (∀ s ∈ S, Relation.TransGen (dep (depsOf eqs)) s x) →
      n = (eqs.map Prod.fst).toFinset.card - S.card → DepthLe eqs x n := by
    intro n
    induction n using Nat.strong_induction_on with
    | _ n ih =>
      intro S x hsub hreach hn
      cases hlk : eqs.lookup x with
      | none => exact .leaf x n hlk
      | some e =>
        have hxK : x ∈ (eqs.map Prod.fst).toFinset :=
          List.mem_toFinset.2 ((lookup_isSome_iff eqs x).1 (by rw [hlk]; rfl))
        have hxS : x ∉ S := by
          intro hxS
          exact hnc ⟨x, hreach x hxS⟩
        have hcardlt : S.card < (eqs.map Prod.fst).toFinset.card :=
          Finset.card_lt_card ((Finset.ssubset_iff_of_subset hsub).2 ⟨x, hxK, hxS⟩)
        have hn1 : 1 ≤ n := by omega
        have hstep : ∀ y ∈ e.supportList, dep (depsOf eqs) x y := by
          intro y hy
          exact (dep_depsOf_iff eqs x y).2 ⟨e, hlk, hy⟩
        have hrec : ∀ y ∈ e.supportList, DepthLe eqs y (n - 1) := by
          intro y hy
          apply ih (n - 1) (by omega) (insert x S)
          · exact Finset.insert_subset hxK hsub
          · intro s hs
            rcases Finset.mem_insert.1 hs with hs | hs
            · subst hs
              exact Relation.TransGen.single (hstep y hy)
            · exact (hreach s hs).tail (hstep y hy)
          · rw [Finset.card_insert_of_not_mem hxS]
            omega
        have : DepthLe eqs x ((n - 1) + 1) := .node x e (n - 1) hlk hrec
        have heq : (n - 1) + 1 = n := by omega
        rwa [heq] at this
  intro x
  apply haux _ ∅ x (Finset.empty_subset _) (by intro s hs; simp at hs)
  simp

/-! ### The reference evaluation of signals

`evalTreeF`/`evalVarF` is the simulator's recursion with the memo dict
dropped: the value of a node under a fixed partial input assignment,
recursing into equations with a fuel-bounded depth.  It serves as the
denotation against which both the memoized simulator and the Tseitin
encoding are proved correct. -/

theorem evalTreeF_mono_handler {h h' : String → Option Bool}
    (hm : ∀ x b, h x = some b → h' x = some b) :
    ∀ t b, evalTreeF h t = some b → evalTreeF h' t = some b := by
  intro t
  induction t with
  | lit i v => intro b hb; exact hb
  | var i x => intro b hb; exact hm x b hb
  | unop i op c ih =>
    intro b hb
    rw [evalTreeF] at hb ⊢
    cases hc : evalTreeF h c with
    | none => rw [hc] at hb; exact Option.noConfusion hb
    | some y =>
      rw [hc] at hb
      rw [ih y hc]
      exact hb
  | binop i op a bb iha ihb =>
    intro b hb
    rw [evalTreeF] at hb ⊢
    cases ha : evalTreeF h a with
    | none => rw [ha] at hb; exact Option.noConfusion hb
    | some y =>
      cases hb2 : evalTreeF h bb with
      | none => rw [ha, hb2] at hb; exact Option.noConfusion hb
      | some z =>
        rw [ha, hb2] at hb
        rw [iha y ha, ihb z hb2]
        exact hb

theorem evalVarF_succ (eqs : List (String × Node)) (inp : String → Option Bool) :
    ∀ f x b, evalVarF eqs inp f x = some b → evalVarF eqs inp (f + 1) x = some b := by
  intro f
  induction f with
  | zero =>
    intro x b hb
    rw [evalVarF] at hb
    rw [evalVarF]
    cases hi : inp x with
    | some v => rw [hi] at hb; exact hb
    | none =>
      rw [hi] at hb
      cases hl : eqs.lookup x with
      | none => rw [hl] at hb; exact Option.noConfusion hb
      | some e => rw [hl] at hb; exact Option.noConfusion hb
  | succ f ih =>
    intro x b hb
    rw [evalVarF] at hb
    rw [evalVarF]
    cases hi : inp x with
    | some v => rw [hi] at hb; exact hb
    | none =>
      rw [hi] at hb
      cases hl : eqs.lookup x with
      | none => rw [hl] at hb; exact Option.noConfusion hb
      | some e =>
        rw [hl] at hb
        exact evalTreeF_mono_handler ih e b hb

theorem evalVarF_mono (eqs : List (String × Node)) (inp : String → Option Bool)
    {f f' : Nat} (hf : f ≤ f') :
    ∀ x b, evalVarF eqs inp f x = some b → evalVarF eqs inp f' x = some b := by
  induction f' with
  | zero =>
    intro x b
    have : f = 0 := by omega
    subst this
    exact fun h => h
  | succ f2 ih =>
    intro x b hb
    rcases Nat.lt_or_ge f (f2 + 1) with hlt | hge
    · exact evalVarF_succ eqs inp f2 x b (ih (by omega) x b hb)
    · have : f = f2 + 1 := by omega
      subst this
      exact hb

theorem evalTreeF_fuel_mono (eqs : List (String × Node)) (inp : String → Option Bool)
    {f f' : Nat} (hf : f ≤ f') (t : Node) (b : Bool)
    (h : evalTreeF (evalVarF eqs inp f) t = some b) :
    evalTreeF (evalVarF eqs inp f') t = some b :=
  evalTreeF_mono_handler (evalVarF_mono eqs inp hf) t b h

theorem evalTreeF_isSome_of_handler (h : String → Option Bool) (t : Node)
    (hall : ∀ y ∈ t.supportList, (h y).isSome) : (evalTreeF h t).isSome := by
  induction t with
  | lit i v => rfl
  | var i x => exact hall x (by simp [Node.supportList])
  | unop i op c ih =>
    have hc := ih (fun y hy => hall y (by simpa [Node.supportList] using hy))
    rw [evalTreeF]
    cases hcc : evalTreeF h c with
    | none => rw [hcc] at hc; exact Bool.noConfusion hc
    | some y => rfl
  | binop i op a bb iha ihb =>
    have ha := iha (fun y hy => hall y (by simp [Node.supportList]; exact Or.inl hy))
    have hb := ihb (fun y hy => hall y (by simp [Node.supportList]; exact Or.inr hy))
    rw [evalTreeF]
    cases haa : evalTreeF h a with
    | none => rw [haa] at ha; exact Bool.noConfusion ha
    | some y =>
      cases hbb : evalTreeF h bb with
      | none => rw [hbb] at hb; exact Bool.noConfusion hb
      | some z => rfl

theorem evalVarF_isSome (eqs : List (String × Node)) (inp : String → Option Bool)
    (hcl : ClosedSupp eqs inp) :
    ∀ fuel x, ((inp x).isSome ∨ ((eqs.lookup x).isSome ∧ DepthLe eqs x fuel)) →
      (evalVarF eqs inp fuel x).isSome := by
  intro fuel
  induction fuel with
  | zero =>
    intro x hx
    rw [evalVarF]
    cases hi : inp x with
    | some v => rfl
    | none =>
      rcases hx with hx | ⟨hsome, hd⟩
      · rw [hi] at hx; exact Bool.noConfusion hx
      · cases hl : eqs.lookup x with
        | none => rw [hl] at hsome; exact Bool.noConfusion hsome
        | some e =>
          obtain ⟨n, hn, _⟩ := depthLe_node_inv hd hl
          omega
  | succ f ih =>
    intro x hx
    rw [evalVarF]
    cases hi : inp x with
    | some v => rfl
    | none =>
      rcases hx with hx | ⟨hsome, hd⟩
      · rw [hi] at hx; exact Bool.noConfusion hx
      · cases hl : eqs.lookup x with
        | none => rw [hl] at hsome; exact Bool.noConfusion hsome
        | some e =>
          obtain ⟨n, hn, hall⟩ := depthLe_node_inv hd hl
          have hnf : n = f := by omega
          subst hnf
          apply evalTreeF_isSome_of_handler
          intro y hy
          apply ih y
          rcases hcl x e hl y hy with hin | hkey
          · exact Or.inl hin
          · exact Or.inr ⟨hkey, hall y hy⟩

/-! ### Correctness of the memoized simulator -/

theorem LookupMono.refl (v : VMap) : LookupMono v v := fun _ _ h => h

theorem LookupMono.trans {v1 v2 v3 : VMap} (h1 : LookupMono v1 v2)
    (h2 : LookupMono v2 v3) : LookupMono v1 v3 :=
  fun z c h => h2 z c (h1 z c h)

/-- Unfolding step of the reference valuation at a defined, non-input
signal: if the equation's tree evaluates (at full fuel) to `b`, the
signal's reference value is `b`. -/
theorem evalVarF_big_eq (eqs : List (String × Node)) (inp : String → Option Bool)
    {big fuel : Nat} {k : String} {e : Node} {b : Bool}
    (hin : inp k = none) (hlk : eqs.lookup k = some e)
    (hd : DepthLe eqs k fuel) (hfb : fuel ≤ big) (hcl : ClosedSupp eqs inp)
    (hb : evalTreeF (evalVarF eqs inp big) e = some b) :
    evalVarF eqs inp big k = some b := by
  obtain ⟨n, hn, hall⟩ := depthLe_node_inv hd hlk
  have hbig1 : 1 ≤ big := by omega
  obtain ⟨b2, hb2⟩ : ∃ b2, evalTreeF (evalVarF eqs inp (big - 1)) e = some b2 := by
    have : (evalTreeF (evalVarF eqs inp (big - 1)) e).isSome := by
      apply evalTreeF_isSome_of_handler
      intro y hy
      apply evalVarF_isSome eqs inp hcl
      rcases hcl k e hlk y hy with hy1 | hy1
      · exact Or.inl hy1
      · exact Or.inr ⟨hy1, (hall y hy).mono (by omega)⟩
    cases hh : evalTreeF (evalVarF eqs inp (big - 1)) e with
    | none => rw [hh] at this; exact Bool.noConfusion this
    | some bb => exact ⟨bb, rfl⟩
  have hb2big : evalTreeF (evalVarF eqs inp big) e = some b2 :=
    evalTreeF_fuel_mono eqs inp (by omega) e b2 hb2
  have hbb : b2 = b := by
    rw [hb2big] at hb
    exact Option.some.inj hb
  subst hbb
  have hbig : big = (big - 1) + 1 := by omega
  rw [evalVarF, hin, hlk, hbig]
  exact hb2

/-- Evaluation of a tree by the simulator, generic in the handler used
for `Variable` nodes: if the handler is correct on every name satisfying
`Pvar`, tree evaluation is correct on every tree whose support satisfies
`Pvar`. -/
theorem simTree_ok_of_handler (eqs : List (String × Node)) (inp : String → Option Bool)
    (big : Nat) (Pvar : String → Prop)
    (g : String → VMap → Except PyErr (Bool × VMap))
    (hg : ∀ x v, Pvar x → InvV eqs inp big v →
      ∃ b v', g x v = .ok (b, v') ∧ evalVarF eqs inp big x = some b ∧
        InvV eqs inp big v' ∧ LookupMono v v') :
    ∀ t v, (∀ y ∈ t.supportList, Pvar y) → InvV eqs inp big v →
      ∃ b v', simTree g t v = .ok (b, v') ∧
        evalTreeF (evalVarF eqs inp big) t = some b ∧
        InvV eqs inp big v' ∧ LookupMono v v' := by
  intro t
  induction t with
  | lit i bv =>
    intro v _ hv
    exact ⟨bv, v, rfl, rfl, hv, LookupMono.refl v⟩
  | var i x =>
    intro v hp hv
    obtain ⟨b, v', h1, h2, h3, h4⟩ := hg x v (hp x (by simp [Node.supportList])) hv
    exact ⟨b, v', h1, h2, h3, h4⟩
  | unop i op c ih =>
    intro v hp hv
    obtain ⟨b, v', h1, h2, h3, h4⟩ :=
      ih v (fun y hy => hp y (by simpa [Node.supportList] using hy)) hv
    refine ⟨op.eval b, v', ?_, ?_, h3, h4⟩
    · rw [simTree, h1]
    · rw [evalTreeF, h2]
  | binop i op a bb iha ihb =>
    intro v hp hv
    obtain ⟨b1, v1, h1, h2, h3, h4⟩ :=
      iha v (fun y hy => hp y (by simp [Node.supportList]; exact Or.inl hy)) hv
    obtain ⟨b2, v2, g1, g2, g3, g4⟩ :=
      ihb v1 (fun y hy => hp y (by simp [Node.supportList]; exact Or.inr hy)) h3
    refine ⟨op.eval b1 b2, v2, ?_, ?_, g3, h4.trans g4⟩
    · simp [simTree, h1, g1]
    · rw [evalTreeF, h2, g2]

/-- Success and correctness of the `Variable` case of the simulator. -/
theorem simVar_ok (eqs : List (String × Node)) (inp : String → Option Bool)
    (big : Nat) (hcl : ClosedSupp eqs inp) :
    ∀ fuel, fuel ≤ big → ∀ x v,
      ((inp x).isSome ∨ ((eqs.lookup x).isSome ∧ DepthLe eqs x fuel)) →
      InvV eqs inp big v →
      ∃ b v', simVar eqs fuel x v = .ok (b, v') ∧
        evalVarF eqs inp big x = some b ∧
        InvV eqs inp big v' ∧ LookupMono v v' := by
  intro fuel
  induction fuel with
  | zero =>
    intro _ x v hx hv
    rw [simVar]
    cases hvx : v.lookup x with
    | some b =>
      exact ⟨b, v, rfl, hv.2 x b hvx, hv, LookupMono.refl v⟩
    | none =>
      rcases hx with hx | ⟨hsome, hd⟩
      · cases hix : inp x with
        | none => rw [hix] at hx; exact Bool.noConfusion hx
        | some bi =>
          have := hv.1 x (by rw [hix]; rfl)
          rw [hvx, hix] at this
          exact Option.noConfusion this
      · cases hl : eqs.lookup x with
        | none => rw [hl] at hsome; exact Bool.noConfusion hsome
        | some e =>
          obtain ⟨n, hn, _⟩ := depthLe_node_inv hd hl
          omega
  | succ f ih =>
    intro hfb x v hx hv
    rw [simVar]
    cases hvx : v.lookup x with
    | some b =>
      exact ⟨b, v, rfl, hv.2 x b hvx, hv, LookupMono.refl v⟩
    | none =>
      have hinx : inp x = none := by
        cases hix : inp x with
        | none => rfl
        | some bi =>
          have := hv.1 x (by rw [hix]; rfl)
          rw [hvx, hix] at this
          exact Option.noConfusion this
      rcases hx with hx | ⟨hsome, hd⟩
      · rw [hinx] at hx; exact Bool.noConfusion hx
      cases hl : eqs.lookup x with
      | none => rw [hl] at hsome; exact Bool.noConfusion hsome
      | some e =>
        obtain ⟨n, hn, hall⟩ := depthLe_node_inv hd hl
        have hallf : ∀ y ∈ e.supportList, DepthLe eqs y f := by
          intro y hy
          have hdy := hall y hy
          rwa [show n = f by omega] at hdy
        obtain ⟨b, v', h1, h2, h3, h4⟩ :=
          simTree_ok_of_handler eqs inp big
            (fun y => (inp y).isSome ∨ ((eqs.lookup y).isSome ∧ DepthLe eqs y f))
            (simVar eqs f) (fun y w hy hw => ih (by omega) y w hy hw) e v
            (fun y hy => by
              rcases hcl x e hl y hy with hy1 | hy1
              · exact Or.inl hy1
              · exact Or.inr ⟨hy1, hallf y hy⟩) hv
        have hvarx : evalVarF eqs inp big x = some b :=
          evalVarF_big_eq eqs inp hinx hl hd (by omega) hcl h2
        refine ⟨b, (x, b) :: v', ?_, hvarx, ⟨?_, ?_⟩, ?_⟩
        · show (match simTree (simVar eqs f) e v with
              | Except.error er => Except.error er
              | Except.ok (bb, vv) => Except.ok (bb, (x, bb) :: vv)) =
            Except.ok (b, (x, b) :: v')
          rw [h1]
        · intro z hz
          by_cases hzx : z = x
          · subst hzx
            rw [hinx] at hz
            exact Bool.noConfusion hz
          · rw [lookup_cons_ne _ _ hzx]
            exact h3.1 z hz
        · intro z bz hz
          by_cases hzx : z = x
          · subst hzx
            rw [lookup_cons_self] at hz
            cases hz
            exact hvarx
          · rw [lookup_cons_ne _ _ hzx] at hz
            exact h3.2 z bz hz
        · intro z cz hz
          have hzx : z ≠ x := by
            intro he
            subst he
            rw [hvx] at hz
            exact Option.noConfusion hz
          rw [lookup_cons_ne _ _ hzx]
          exact h4 z cz hz

theorem evalVarF_inp {eqs : List (String × Node)} {inp : String → Option Bool}
    {x : String} {b : Bool} (big : Nat) (hix : inp x = some b) :
    evalVarF eqs inp big x = some b := by
  cases big <;> rw [evalVarF, hix]

/-- Success, correctness and completeness of the simulator's main loop. -/
theorem simAll_ok (eqs : List (String × Node)) (inp : String → Option Bool)
    (big fuel : Nat) (hcl : ClosedSupp eqs inp) (hfb : fuel ≤ big)
    (hall : ∀ y, DepthLe eqs y fuel) :
    ∀ todo v, (∀ ke ∈ todo, eqs.lookup ke.1 = some ke.2) →
      (∀ ke ∈ todo, inp ke.1 = none) → InvV eqs inp big v →
      ∃ v2, simAll eqs fuel todo v = .ok v2 ∧ InvV eqs inp big v2 ∧
        LookupMono v v2 ∧ (∀ ke ∈ todo, (v2.lookup ke.1).isSome) := by
  intro todo
  induction todo with
  | nil =>
    intro v _ _ hv
    exact ⟨v, rfl, hv, LookupMono.refl v, by intro ke hke; simp at hke⟩
  | cons ke rest ih =>
    obtain ⟨k, e⟩ := ke
    intro v hk hnone hv
    have hke : eqs.lookup k = some e := hk (k, e) (List.mem_cons_self _ _)
    have hinpk : inp k = none := hnone (k, e) (List.mem_cons_self _ _)
    obtain ⟨b, v', h1, h2, h3, h4⟩ :=
      simTree_ok_of_handler eqs inp big
        (fun y => (inp y).isSome ∨ ((eqs.lookup y).isSome ∧ DepthLe eqs y fuel))
        (simVar eqs fuel)
        (fun y w hy hw => simVar_ok eqs inp big hcl fuel hfb y w hy hw) e v
        (fun y hy => by
          rcases hcl k e hke y hy with hy1 | hy1
          · exact Or.inl hy1
          · exact Or.inr ⟨hy1, hall y⟩) hv
    have hvark : evalVarF eqs inp big k = some b :=
      evalVarF_big_eq eqs inp hinpk hke (hall k) hfb hcl h2
    have hv'' : InvV eqs inp big ((k, b) :: v') := by
      constructor
      · intro z hz
        by_cases hzk : z = k
        · subst hzk
          rw [hinpk] at hz
          exact Bool.noConfusion hz
        · rw [lookup_cons_ne _ _ hzk]
          exact h3.1 z hz
      · intro z bz hz
        by_cases hzk : z = k
        · subst hzk
          rw [lookup_cons_self] at hz
          cases hz
          exact hvark
        · rw [lookup_cons_ne _ _ hzk] at hz
          exact h3.2 z bz hz
    have hmono'' : LookupMono v ((k, b) :: v') := by
      intro z cz hz
      by_cases hzk : z = k
      · subst hzk
        have hcz := h3.2 z cz (h4 z cz hz)
        rw [hvark] at hcz
        cases hcz
        exact lookup_cons_self _ _ _
      · rw [lookup_cons_ne _ _ hzk]
        exact h4 z cz hz
    obtain ⟨v2, g1, g2, g3, g4⟩ :=
      ih ((k, b) :: v') (fun p hp => hk p (List.mem_cons_of_mem _ hp))
        (fun p hp => hnone p (List.mem_cons_of_mem _ hp)) hv''
    refine ⟨v2, ?_, g2, hmono''.trans g3, ?_⟩
    · rw [simAll, h1]
      exact g1
    · intro p hp
      rcases List.mem_cons.1 hp with hp | hp
      · subst hp
        have := g3 k b (lookup_cons_self _ _ _)
        rw [this]
        rfl
      · exact g4 p hp

theorem lookup_filter_isSome (eqs : List (String × Node)) (v : VMap) (x : String) :
    (v.filter (fun sx => (eqs.lookup sx.1).isSome)).lookup x =
      if (eqs.lookup x).isSome then v.lookup x else none := by
  induction v with
  | nil => simp [List.lookup]
  | cons q v ih =>
    obtain ⟨k, a⟩ := q
    by_cases hxk : x = k
    · subst hxk
      cases hpk : (eqs.lookup x).isSome
      · simp [List.filter_cons, hpk, ih]
      · simp [List.filter_cons, hpk, lookup_cons_self]
    · cases hpk : (eqs.lookup k).isSome
      · simp only [List.filter_cons, hpk, Bool.false_eq_true, if_false]
        rw [ih, lookup_cons_ne _ _ hxk]
      · simp only [List.filter_cons, hpk, if_true]
        rw [lookup_cons_ne _ _ hxk, lookup_cons_ne _ _ hxk, ih]

/-! ### Consequences of a successful `Circuit.check` -/

theorem outputs_defined_of_check (c : Circuit) (h : c.check = .ok ()) :
    ∀ o ∈ c.outputs, (c.equations.lookup o).isSome := by
  intro o ho
  have h1 := (check_ok_parts c h).1
  rw [Circuit.firstUndefinedOutput] at h1
  have := List.find?_eq_none.1 h1 o ho
  simpa using this

theorem inputs_unconstrained_of_check (c : Circuit) (h : c.check = .ok ()) :
    ∀ i ∈ c.inputs, c.equations.lookup i = none := by
  intro i hi
  have h2 := (check_ok_parts c h).2.1
  rw [Circuit.firstConstrainedInput] at h2
  have := List.find?_eq_none.1 h2 i hi
  cases hl : c.equations.lookup i with
  | none => rfl
  | some e => rw [hl] at this; simp at this

theorem support_closed_of_check (c : Circuit) (h : c.check = .ok ()) :
    ∀ k e, c.equations.lookup k = some e →
      ∀ y ∈ e.supportList, y ∈ c.inputs ∨ (c.equations.lookup y).isSome := by
  intro k e hk y hy
  have h3 := (check_ok_parts c h).2.2.1
  rw [Circuit.firstUndefinedSignal] at h3
  have hmem : (k, e.supportList) ∈ depsOf c.equations := by
    apply lookup_mem (l := depsOf c.equations)
    rw [lookup_depsOf, hk]
    rfl
  have hfind := List.findSome?_eq_none_iff.1 h3 (k, e.supportList) hmem
  have := List.find?_eq_none.1 hfind y hy
  simp only [Bool.not_eq_true', Bool.not_eq_false] at this
  rw [Circuit.isSignal] at this
  simp only [Bool.or_eq_true, decide_eq_true_eq] at this
  rcases this with (hin | hout) | hkey
  · exact Or.inl hin
  · exact Or.inr (outputs_defined_of_check c h y hout)
  · exact Or.inr hkey

theorem closedSupp_of_check (c : Circuit) (h : c.check = .ok ())
    (inp : String → Option Bool) (hin : ∀ x ∈ c.inputs, (inp x).isSome) :
    ClosedSupp c.equations inp := by
  intro k e hk y hy
  rcases support_closed_of_check c h k e hk y hy with h1 | h1
  · exact Or.inl (hin y h1)
  · exact Or.inr h1

theorem depthLe_all_of_check (c : Circuit) (h : c.check = .ok ()) :
    ∀ y, DepthLe c.equations y (c.equations.length + 1) := by
  intro y
  have hnc := noCycle_of_check_ok c h
  have hd := depthLe_of_noCycle c.equations hnc y
  apply hd.mono
  calc (c.equations.map Prod.fst).toFinset.card
      ≤ (c.equations.map Prod.fst).length := List.toFinset_card_le _
    _ = c.equations.length := List.length_map _ _
    _ ≤ c.equations.length + 1 := Nat.le_succ _

/-- Master lemma for `Circuit.simulate` on a validated circuit with an
input dictionary defined exactly on the inputs: simulation succeeds, the
result is defined exactly on the equation keys, and every returned value
is the reference value of its signal. -/
theorem simulate_ok (c : Circuit) (hok : c.check = .ok ()) (hwf : c.WF) (σ : VMap)
    (htot : ∀ x, (σ.lookup x).isSome ↔ x ∈ c.inputs) :
    ∃ m, c.simulate σ = .ok m ∧
      (∀ s, (m.lookup s).isSome ↔ (c.equations.lookup s).isSome) ∧
      (∀ s b, m.lookup s = some b →
        evalVarF c.equations (fun x => σ.lookup x) (c.equations.length + 1) s = some b) := by
  set inp : String → Option Bool := fun x => σ.lookup x with hinp
  set big := c.equations.length + 1 with hbig
  have hcl : ClosedSupp c.equations inp :=
    closedSupp_of_check c hok inp (fun x hx => (htot x).2 hx)
  have hall : ∀ y, DepthLe c.equations y big := depthLe_all_of_check c hok
  have hv0 : InvV c.equations inp big σ := by
    constructor
    · intro x _; rfl
    · intro x b hx
      exact evalVarF_inp big hx
  obtain ⟨v2, h1, h2, _, h4⟩ :=
    simAll_ok c.equations inp big big hcl (Nat.le_refl big) hall c.equations σ
      (fun ke hke => lookup_of_mem_nodup hwf.2.2 hke)
      (fun ke hke => by
        have hkey : (c.equations.lookup ke.1).isSome :=
          (lookup_isSome_iff _ _).2 (List.mem_map.2 ⟨ke, hke, rfl⟩)
        have hnotin : ke.1 ∉ c.inputs := by
          intro hin
          rw [inputs_unconstrained_of_check c hok ke.1 hin] at hkey
          exact Bool.noConfusion hkey
        show σ.lookup ke.1 = none
        cases hs : σ.lookup ke.1 with
        | none => rfl
        | some b => exact absurd ((htot ke.1).1 (by rw [hs]; rfl)) hnotin) hv0
  refine ⟨v2.filter (fun sx => (c.equations.lookup sx.1).isSome),
    by rw [Circuit.simulate, ← hbig, h1], ?_, ?_⟩
  · intro s
    rw [lookup_filter_isSome]
    by_cases hks : (c.equations.lookup s).isSome
    · rw [if_pos hks]
      simp only [hks, iff_true]
      cases hl : c.equations.lookup s with
      | none => rw [hl] at hks; exact Bool.noConfusion hks
      | some e => exact h4 (s, e) (lookup_mem hl)
    · rw [if_neg hks]
      simpa using hks
  · intro s b hs
    rw [lookup_filter_isSome] at hs
    by_cases hks : (c.equations.lookup s).isSome
    · rw [if_pos hks] at hs
      exact h2.2 s b hs
    · rw [if_neg hks] at hs
      exact Option.noConfusion hs

/-- C7.  Simulation totality: on a circuit that passed construction-time
validation and an input assignment defined on exactly the inputs,
`simulate` terminates successfully (the fuel of the embedding is never
exhausted) and returns a dictionary whose keys are exactly
`outputs ∪ keys(equations)` (every output being an equation key), each
mapped to a Boolean. -/
theorem claim_C7_simulate_total (c : Circuit) (σ : VMap)
    (hok : c.check = .ok ()) (hwf : c.WF)
    (htot : ∀ x, (σ.lookup x).isSome ↔ x ∈ c.inputs) :
    ∃ m, c.simulate σ = .ok m ∧
      ∀ s, (m.lookup s).isSome ↔ (s ∈ c.outputs ∨ s ∈ c.equations.map Prod.fst) := by
  obtain ⟨m, h1, h2, _⟩ := simulate_ok c hok hwf σ htot
  refine ⟨m, h1, ?_⟩
  intro s
  rw [h2 s, lookup_isSome_iff]
  constructor
  · exact Or.inr
  · rintro (hs | hs)
    · exact (lookup_isSome_iff _ _).1 (outputs_defined_of_check c hok s hs)
    · exact hs

/-! ### C10: the broken exception handler of `getEquation` -/

/-- C10 (amended).  `getEquation` on a name that is not an equation key
raises `NameError` — the `except KeyError` handler formats its message
with a variable `s` that is not in scope — rather than
`BrokenCircuitException` or a dedicated unassigned-input error; the
simulator reaches this exactly when it dereferences a `Variable` whose
name has no cached value and no equation (in particular an input missing
from the caller's dictionary that the evaluation actually touches, not
merely any missing input). -/
theorem claim_C10_getEquation_nameError :
    (∀ (c : Circuit) (x : String), c.equations.lookup x = none →
      c.getEquation x = .error .nameError) ∧
    (∀ (eqs : List (String × Node)) (fuel : Nat) (x : String) (v : VMap),
      v.lookup x = none → eqs.lookup x = none →
      simVar eqs fuel x v = .error .nameError) := by
  constructor
  · intro c x h
    rw [Circuit.getEquation, h]
  · intro eqs fuel x v hv hx
    rw [simVar, hv, hx]

theorem claim_C10_getEquation_nameError_witness :
    exUnused.getEquation "zz" = .error .nameError ∧
      simVar exUnused.equations 1 "b" [("a", true)] = .error .nameError :=
  ⟨claim_C10_getEquation_nameError.1 exUnused "zz" rfl,
   claim_C10_getEquation_nameError.2 exUnused.equations 1 "b" [("a", true)] rfl rfl⟩

/-- C10, counterexample to the claim as stated: `simulate` does *not*
reach `getEquation`'s error whenever an input name is missing from the
caller's dictionary — on `exUnused` the input `b` is missing yet
simulation succeeds, because no evaluated equation references `b`. -/
theorem claim_C10_counterexample :
    "b" ∈ exUnused.inputs ∧ (List.lookup "b" ([("a", true)] : VMap)) = none ∧
      exUnused.simulate [("a", true)] = .ok [("o", true)] :=
  ⟨by decide, rfl, rfl⟩

/-! ### C8: the blocking clause -/

theorem invert_fold_some (step : Option Clause → (String × Bool) → Option Clause)
    (hstep : step = fun bc xb =>
      let l : Lit := if xb.2 then (SV xb.1).invert else SV xb.1
      match bc with
      | none => some [l]
      | some c => some (c ++ [l])) :
    ∀ (l : List (String × Bool)) (c : Clause),
      l.foldl step (some c) = some (c ++ l.map (fun xb => (xb.1, !xb.2))) := by
  intro l
  induction l with
  | nil => intro c; simp
  | cons xb rest ih =>
    intro c
    obtain ⟨x, b⟩ := xb
    rw [List.foldl_cons, hstep]
    cases b with
    | false =>
      have := ih (c ++ [(x, true)])
      rw [hstep] at this
      simpa using this
    | true =>
      have := ih (c ++ [(x, false)])
      rw [hstep] at this
      simpa [SV, Lit.invert] using this

/-- The blocking clause of a nonempty SAT assignment is exactly the
literal-wise negation of the assignment, in `items()` order. -/
theorem invert_eq_of_ne_nil (asn : List (String × Bool)) (hne : asn ≠ []) :
    (Solution.sat asn).invert = some (asn.map (fun xb => (xb.1, !xb.2))) := by
  cases asn with
  | nil => exact absurd rfl hne
  | cons xb rest =>
    obtain ⟨x, b⟩ := xb
    rw [Solution.invert]
    rw [List.foldl_cons]
    cases b with
    | false =>
      have := invert_fold_some _ rfl rest [(x, true)]
      simpa using this
    | true =>
      have := invert_fold_some _ rfl rest [(x, false)]
      simpa [SV, Lit.invert] using this

theorem cnfSat_append (m : String → Bool) (f g : Cnf) :
    cnfSat m (f ++ g) = (cnfSat m f && cnfSat m g) := by
  simp [cnfSat, List.all_append]

theorem clauseSat_negmap (m : String → Bool) (asn : List (String × Bool)) :
    clauseSat m (asn.map (fun xb => (xb.1, !xb.2))) = true ↔
      ∃ xb ∈ asn, m xb.1 = !xb.2 := by
  simp only [clauseSat, List.any_map, List.any_eq_true, Function.comp]
  constructor
  · rintro ⟨xb, hmem, hsat⟩
    exact ⟨xb, hmem, by simpa [litSat] using hsat⟩
  · rintro ⟨xb, hmem, hsat⟩
    exact ⟨xb, hmem, by simpa [litSat] using hsat⟩

/-- C8 (amended).  For a SAT solution with a *nonempty* assignment, the
`~` operator produces the clause that is the disjunction, over all
assigned variables, of `~V(x)` for a true entry and `V(x)` for a false
one; conjoining this clause with any formula `F` excludes exactly the
model described by the assignment, so a contract-satisfying solver can
never return that assignment again on the strengthened formula. -/
theorem claim_C8_blocking_clause (asn : List (String × Bool)) (F : Cnf)
    (hne : asn ≠ []) (hnd : (asn.map Prod.fst).Nodup) :
    ∃ bc, (Solution.sat asn).invert = some bc ∧
      bc = asn.map (fun xb => (xb.1, !xb.2)) ∧
      cnfSat (asnFun asn) (F ++ [bc]) = false ∧
      (∀ m : String → Bool, cnfSat m (F ++ [bc]) = true →
        cnfSat m F = true ∧ ∃ xb ∈ asn, m xb.1 = !xb.2) ∧
      (∀ m : String → Bool, cnfSat m F = true → (∃ xb ∈ asn, m xb.1 ≠ xb.2) →
        cnfSat m (F ++ [bc]) = true) ∧
      (∀ solve, SolverOk solve → ∀ a', solve (F ++ [bc]) = .sat a' →
        ∃ xb ∈ asn, asnFun a' xb.1 ≠ asnFun asn xb.1) := by
  refine ⟨asn.map (fun xb => (xb.1, !xb.2)), invert_eq_of_ne_nil asn hne, rfl, ?_, ?_, ?_, ?_⟩
  · rw [cnfSat_append]
    have hbc : clauseSat (asnFun asn) (asn.map (fun xb => (xb.1, !xb.2))) = false := by
      rw [Bool.eq_false_iff]
      intro hsat
      obtain ⟨xb, hmem, hval⟩ := (clauseSat_negmap _ asn).1 hsat
      have hlk : asn.lookup xb.1 = some xb.2 :=
        lookup_of_mem_nodup hnd (by exact hmem)
      rw [asnFun, hlk] at hval
      simp at hval
    simp [cnfSat, hbc]
  · intro m hm
    rw [cnfSat_append] at hm
    obtain ⟨h1, h2⟩ := Bool.and_eq_true_iff.1 hm
    refine ⟨h1, ?_⟩
    apply (clauseSat_negmap m asn).1
    simpa [cnfSat] using h2
  · intro m hm hdiff
    rw [cnfSat_append, hm]
    obtain ⟨xb, hmem, hval⟩ := hdiff
    have : m xb.1 = !xb.2 := by
      cases hmx : m xb.1 <;> cases hb : xb.2 <;> simp_all
    have hc := (clauseSat_negmap m asn).2 ⟨xb, hmem, this⟩
    simp [cnfSat, hc]
  · intro solve hok a' ha'
    have hsat := hok.sat_sound _ _ ha'
    rw [cnfSat_append] at hsat
    obtain ⟨_, h2⟩ := Bool.and_eq_true_iff.1 hsat
    have h2' : clauseSat (asnFun a') (asn.map (fun xb => (xb.1, !xb.2))) = true := by
      simpa [cnfSat] using h2
    obtain ⟨xb, hmem, hval⟩ := (clauseSat_negmap _ asn).1 h2'
    refine ⟨xb, hmem, ?_⟩
    have hlk : asn.lookup xb.1 = some xb.2 :=
      lookup_of_mem_nodup hnd (by exact hmem)
    rw [hval, asnFun, hlk]
    simp

theorem claim_C8_blocking_clause_witness :
    ([("x", true)] : List (String × Bool)) ≠ [] ∧
      ∃ bc, (Solution.sat [("x", true)]).invert = some bc ∧
        bc = [("x", false)] ∧
        cnfSat (asnFun [("x", true)]) ([[("x", true)]] ++ [bc]) = false := by
  refine ⟨by simp, ?_⟩
  obtain ⟨bc, h1, h2, h3, _⟩ :=
    claim_C8_blocking_clause [("x", true)] [[("x", true)]] (by simp) (by simp)
  exact ⟨bc, h1, by rw [h2]; rfl, h3⟩

/-- C8, counterexample to the claim as stated: on a SAT solution with
the empty assignment the `~` operator yields `None` rather than any
clause (the Python fold starts from `None` and never runs). -/
theorem claim_C8_counterexample : (Solution.sat []).invert = none := rfl

/-! ### Semantics of the gate encodings -/

theorem litSat_invert (m : String → Bool) (l : Lit) :
    litSat m l.invert = !litSat m l := by
  obtain ⟨nm, ph⟩ := l
  cases hm : m nm <;> cases ph <;> simp [litSat, Lit.invert]

theorem litSat_SV (m : String → Bool) (nm : String) :
    litSat m (SV nm) = m nm := by
  cases hm : m nm <;> simp [litSat, SV, hm]

theorem mk_and_sat (m : String → Bool) (s a b : Lit) :
    cnfSat m (mk_and s a b) = true ↔ litSat m s = (litSat m a && litSat m b) := by
  simp only [mk_and, cnfSat, clauseSat, List.all_cons, List.all_nil, List.any_cons,
    List.any_nil, litSat_invert, Bool.and_eq_true, Bool.or_eq_true]
  cases litSat m a <;> cases litSat m b <;> cases litSat m s <;> simp

theorem mk_or_sat (m : String → Bool) (s a b : Lit) :
    cnfSat m (mk_or s a b) = true ↔ litSat m s = (litSat m a || litSat m b) := by
  simp only [mk_or, cnfSat, clauseSat, List.all_cons, List.all_nil, List.any_cons,
    List.any_nil, litSat_invert, Bool.and_eq_true, Bool.or_eq_true]
  cases litSat m a <;> cases litSat m b <;> cases litSat m s <;> simp

theorem mk_xor_sat (m : String → Bool) (s a b : Lit) :
    cnfSat m (mk_xor s a b) = true ↔ litSat m s = Bool.xor (litSat m a) (litSat m b) := by
  simp only [mk_xor, cnfSat, clauseSat, List.all_cons, List.all_nil, List.any_cons,
    List.any_nil, litSat_invert, Bool.and_eq_true, Bool.or_eq_true]
  cases litSat m a <;> cases litSat m b <;> cases litSat m s <;> simp

theorem mk_not_sat (m : String → Bool) (s a : Lit) :
    cnfSat m (mk_not s a) = true ↔ litSat m s = !litSat m a := by
  simp only [mk_not, cnfSat, clauseSat, List.all_cons, List.all_nil, List.any_cons,
    List.any_nil, litSat_invert, Bool.and_eq_true, Bool.or_eq_true]
  cases litSat m a <;> cases litSat m s <;> simp

theorem mk_eq_sat (m : String → Bool) (s a : Lit) :
    cnfSat m (mk_eq s a) = true ↔ litSat m s = litSat m a := by
  simp only [mk_eq, cnfSat, clauseSat, List.all_cons, List.all_nil, List.any_cons,
    List.any_nil, litSat_invert, Bool.and_eq_true, Bool.or_eq_true]
  cases litSat m a <;> cases litSat m s <;> simp

theorem unit_sat (m : String → Bool) (l : Lit) :
    cnfSat m [[l]] = true ↔ litSat m l = true := by
  simp [cnfSat, clauseSat]

/-- The generic `BinOp` gate encoding chosen by `f`/`transform`. -/
theorem mk_bin_sat (m : String → Bool) (op : BOp) (s a b : Lit) :
    cnfSat m
      (match op with
        | .and => mk_and s a b
        | .xor => mk_xor s a b
        | .or => mk_or s a b) = true ↔
      litSat m s = op.eval (litSat m a) (litSat m b) := by
  cases op with
  | and => exact mk_and_sat m s a b
  | or => exact mk_or_sat m s a b
  | xor => exact mk_xor_sat m s a b

/-! ### Structure of `transform` -/

theorem foldl_append_acc {α : Type} (g : α → Cnf) :
    ∀ (l : List α) (init : Cnf),
      l.foldl (fun acc ke => acc ++ g ke) init = init ++ l.flatMap g := by
  intro l
  induction l with
  | nil => intro init; simp
  | cons ke rest ih =>
    intro init
    rw [List.foldl_cons, ih]
    simp

theorem transform_eq_flatMap (c : Circuit) (pfx : String) :
    transform c pfx = c.equations.flatMap (fun ke => transformEq pfx ke.1 ke.2) := by
  rw [transform, foldl_append_acc]
  rfl

theorem cnfSat_of_sublist (m : String → Bool) {F G : Cnf}
    (hsub : ∀ cl ∈ G, cl ∈ F) (hF : cnfSat m F = true) : cnfSat m G = true := by
  rw [cnfSat, List.all_eq_true]
  intro cl hcl
  exact (List.all_eq_true.1 hF) cl (hsub cl hcl)

theorem transformEq_sat_of_transform (c : Circuit) (pfx : String) (m : String → Bool)
    {k : String} {e : Node} (hke : (k, e) ∈ c.equations)
    (hsat : cnfSat m (transform c pfx) = true) :
    cnfSat m (transformEq pfx k e) = true := by
  apply cnfSat_of_sublist m _ hsat
  intro cl hcl
  rw [transform_eq_flatMap]
  exact List.mem_flatMap.2 ⟨(k, e), hke, hcl⟩

/-! ### Soundness of the Tseitin encoding -/

/-- Soundness of the recursive helper `f`: if the assignment satisfies
the emitted clauses and agrees with the handler on every free signal of
the tree, then the representing literal carries the tree's value. -/
theorem fEnc_sound (pfx : String) (m : String → Bool) (h : String → Option Bool) :
    ∀ t : Node,
      (∀ y ∈ t.supportList, ∃ b, h y = some b ∧ m (pfx ++ y) = b) →
      cnfSat m (fEnc pfx t).2 = true →
      ∃ b, evalTreeF h t = some b ∧ litSat m (fEnc pfx t).1 = b := by
  intro t
  induction t with
  | lit i bv =>
    intro _ hsat
    refine ⟨bv, rfl, ?_⟩
    rw [fEnc] at hsat ⊢
    cases bv with
    | true =>
      have h5 := (unit_sat m _).1 hsat
      rw [if_pos rfl] at h5
      simpa [litSat_SV] using h5
    | false =>
      have h5 := (unit_sat m _).1 hsat
      rw [if_neg (by simp)] at h5
      rw [litSat_invert, litSat_SV] at h5
      simpa [litSat_SV] using h5
  | var i nm =>
    intro hleaf _
    obtain ⟨b, hb, hm⟩ := hleaf nm (by simp [Node.supportList])
    refine ⟨b, hb, ?_⟩
    rw [fEnc]
    rw [litSat_SV]
    exact hm
  | unop i op ch ih =>
    intro hleaf hsat
    cases op
    rw [fEnc] at hsat ⊢
    have hpair : fEnc pfx ch = ((fEnc pfx ch).1, (fEnc pfx ch).2) := rfl
    rw [hpair] at hsat ⊢
    rw [cnfSat_append, Bool.and_eq_true] at hsat
    obtain ⟨h1, h2⟩ := hsat
    obtain ⟨bc, hbc, hlit⟩ :=
      ih (fun y hy => hleaf y (by simpa [Node.supportList] using hy)) h1
    have hnot := (mk_not_sat m _ _).1 h2
    refine ⟨!bc, ?_, ?_⟩
    · rw [evalTreeF, hbc]
      rfl
    · rw [hnot, hlit]
  | binop i op x y ihx ihy =>
    intro hleaf hsat
    rw [fEnc] at hsat ⊢
    have hpx : fEnc pfx x = ((fEnc pfx x).1, (fEnc pfx x).2) := rfl
    have hpy : fEnc pfx y = ((fEnc pfx y).1, (fEnc pfx y).2) := rfl
    rw [hpx, hpy] at hsat ⊢
    rw [cnfSat_append, cnfSat_append, Bool.and_eq_true, Bool.and_eq_true] at hsat
    obtain ⟨⟨h1, h2⟩, h3⟩ := hsat
    obtain ⟨bx, hbx, hlx⟩ :=
      ihx (fun z hz => hleaf z (by simp [Node.supportList]; exact Or.inl hz)) h1
    obtain ⟨by', hby, hly⟩ :=
      ihy (fun z hz => hleaf z (by simp [Node.supportList]; exact Or.inr hz)) h2
    have hg := (mk_bin_sat m op _ _ _).1 h3
    refine ⟨op.eval bx by', ?_, ?_⟩
    · rw [evalTreeF, hbx, hby]
    · rw [hg, hlx, hly]

/-- Soundness of the clauses `transform` emits for one equation. -/
theorem transformEq_sound (pfx : String) (m : String → Bool) (h : String → Option Bool)
    (k : String) (e : Node)
    (hleaf : ∀ y ∈ e.supportList, ∃ b, h y = some b ∧ m (pfx ++ y) = b)
    (hsat : cnfSat m (transformEq pfx k e) = true) :
    ∃ b, evalTreeF h e = some b ∧ m (pfx ++ k) = b := by
  cases e with
  | lit i bv =>
    refine ⟨bv, rfl, ?_⟩
    rw [transformEq] at hsat
    cases bv with
    | true =>
      have h5 := (unit_sat m _).1 hsat
      rw [if_pos rfl] at h5
      rw [litSat_SV] at h5
      exact h5
    | false =>
      have h5 := (unit_sat m _).1 hsat
      rw [if_neg (by simp)] at h5
      rw [litSat_invert, litSat_SV] at h5
      simpa using h5
  | var i nm =>
    obtain ⟨b, hb, hm⟩ := hleaf nm (by simp [Node.supportList])
    refine ⟨b, hb, ?_⟩
    rw [transformEq] at hsat
    have := (mk_eq_sat m _ _).1 hsat
    rw [litSat_SV, litSat_SV] at this
    rw [this, hm]
  | unop i op ch =>
    cases op
    rw [transformEq] at hsat
    have hpair : fEnc pfx ch = ((fEnc pfx ch).1, (fEnc pfx ch).2) := rfl
    rw [hpair] at hsat
    rw [cnfSat_append, Bool.and_eq_true] at hsat
    obtain ⟨h1, h2⟩ := hsat
    obtain ⟨bc, hbc, hlit⟩ :=
      fEnc_sound pfx m h ch
        (fun y hy => hleaf y (by simpa [Node.supportList] using hy)) h1
    have hnot := (mk_not_sat m _ _).1 h2
    refine ⟨!bc, ?_, ?_⟩
    · rw [evalTreeF, hbc]
      rfl
    · rw [litSat_SV] at hnot
      rw [hnot, hlit]
  | binop i op x y =>
    rw [transformEq] at hsat
    have hpx : fEnc pfx x = ((fEnc pfx x).1, (fEnc pfx x).2) := rfl
    have hpy : fEnc pfx y = ((fEnc pfx y).1, (fEnc pfx y).2) := rfl
    rw [hpx, hpy] at hsat
    rw [cnfSat_append, cnfSat_append, Bool.and_eq_true, Bool.and_eq_true] at hsat
    obtain ⟨⟨h1, h2⟩, h3⟩ := hsat
    obtain ⟨bx, hbx, hlx⟩ :=
      fEnc_sound pfx m h x
        (fun z hz => hleaf z (by simp [Node.supportList]; exact Or.inl hz)) h1
    obtain ⟨by', hby, hly⟩ :=
      fEnc_sound pfx m h y
        (fun z hz => hleaf z (by simp [Node.supportList]; exact Or.inr hz)) h2
    have hg := (mk_bin_sat m op _ _ _).1 h3
    refine ⟨op.eval bx by', ?_, ?_⟩
    · rw [evalTreeF, hbx, hby]
    · rw [litSat_SV] at hg
      rw [hg, hlx, hly]

theorem lookup_map_fn (g : String → Bool) :
    ∀ (l : List String) (x : String),
      (l.map (fun i => (i, g i))).lookup x = if x ∈ l then some (g x) else none := by
  intro l
  induction l with
  | nil => intro x; simp [List.lookup]
  | cons i rest ih =>
    intro x
    by_cases hxi : x = i
    · subst hxi
      simp [lookup_cons_self]
    · rw [List.map_cons, lookup_cons_ne _ _ hxi, ih]
      simp [hxi]

/-- Every satisfying assignment of the Tseitin CNF carries, on each
prefixed signal variable, the reference value of that signal under the
inputs read off the assignment. -/
theorem tseitin_signal_values (c : Circuit) (pfx : String) (m : String → Bool)
    (hok : c.check = .ok ()) (hsat : cnfSat m (transform c pfx) = true) :
    ∀ n x, DepthLe c.equations x n → ∀ e, c.equations.lookup x = some e →
      ∃ b, evalVarF c.equations
          (fun y => if y ∈ c.inputs then some (m (pfx ++ y)) else none)
          (c.equations.length + 1) x = some b ∧ m (pfx ++ x) = b := by
  set inp : String → Option Bool :=
    fun y => if y ∈ c.inputs then some (m (pfx ++ y)) else none with hinp
  have hcl : ClosedSupp c.equations inp := by
    apply closedSupp_of_check c hok
    intro y hy
    simp [hinp, hy]
  intro n
  induction n using Nat.strong_induction_on with
  | _ n ih =>
    intro x hd e hlk
    obtain ⟨n', hn', hall⟩ := depthLe_node_inv hd hlk
    have hke : (x, e) ∈ c.equations := lookup_mem hlk
    have hg := transformEq_sat_of_transform c pfx m hke hsat
    have hleaf : ∀ y ∈ e.supportList,
        ∃ b, evalVarF c.equations inp (c.equations.length + 1) y = some b ∧
          m (pfx ++ y) = b := by
      intro y hy
      by_cases hin : y ∈ c.inputs
      · exact ⟨m (pfx ++ y), evalVarF_inp _ (by simp [hinp, hin]), rfl⟩
      · have hkey : (c.equations.lookup y).isSome := by
          rcases support_closed_of_check c hok x e hlk y hy with h | h
          · exact absurd h hin
          · exact h
        obtain ⟨e', he'⟩ := Option.isSome_iff_exists.1 hkey
        exact ih n' (by omega) y (hall y hy) e' he'
    obtain ⟨b, hb, hmb⟩ := transformEq_sound pfx m _ x e hleaf hg
    refine ⟨b, ?_, hmb⟩
    have hxnotin : x ∉ c.inputs := by
      intro hxin
      rw [inputs_unconstrained_of_check c hok x hxin] at hlk
      exact Option.noConfusion hlk
    exact evalVarF_big_eq c.equations inp (by simp [hinp, hxnotin]) hlk
      (depthLe_all_of_check c hok x) (Nat.le_refl _) hcl hb

/-- Tseitin soundness, core form: every satisfying assignment of
`transform(C, p)` agrees with the simulation of `C` on the inputs read
off the assignment. -/
theorem tseitin_sound_outputs (c : Circuit) (pfx : String) (m : String → Bool)
    (hok : c.check = .ok ()) (hwf : c.WF)
    (hsat : cnfSat m (transform c pfx) = true) :
    ∃ res, c.simulate (c.inputs.map (fun x => (x, m (pfx ++ x)))) = .ok res ∧
      ∀ o ∈ c.outputs, res.lookup o = some (m (pfx ++ o)) := by
  have htot : ∀ x,
      ((c.inputs.map (fun x => (x, m (pfx ++ x)))).lookup x).isSome ↔ x ∈ c.inputs := by
    intro x
    rw [lookup_map_fn]
    by_cases h : x ∈ c.inputs <;> simp [h]
  obtain ⟨res, h1, h2, h3⟩ :=
    simulate_ok c hok hwf (c.inputs.map (fun x => (x, m (pfx ++ x)))) htot
  refine ⟨res, h1, ?_⟩
  intro o ho
  have hkey := outputs_defined_of_check c hok o ho
  obtain ⟨e, he⟩ := Option.isSome_iff_exists.1 hkey
  have hsome : (res.lookup o).isSome := (h2 o).2 hkey
  obtain ⟨b, hb⟩ := Option.isSome_iff_exists.1 hsome
  have hval := h3 o b hb
  have hfun : (fun y => List.lookup y (c.inputs.map (fun x => (x, m (pfx ++ x))))) =
      (fun y => if y ∈ c.inputs then some (m (pfx ++ y)) else none) := by
    funext y
    exact lookup_map_fn (fun i => m (pfx ++ i)) c.inputs y
  rw [hfun] at hval
  obtain ⟨b', hb', hmb'⟩ :=
    tseitin_signal_values c pfx m hok hsat (c.equations.length + 1) o
      (depthLe_all_of_check c hok o) e he
  rw [hval] at hb'
  cases hb'
  rw [hb, hmb']

/-- C1.  Tseitin soundness: for every valid circuit `C`, prefix `p` and
satisfying assignment `m` of `transform(C, p)`, simulating `C` on the
inputs read off `m` (each input `x` valued `m(p ++ x)`) succeeds and
gives each output `o` exactly the value `m(p ++ o)`. -/
theorem claim_C1_tseitin_sound (c : Circuit) (pfx : String) (m : String → Bool)
    (hok : c.check = .ok ()) (hwf : c.WF)
    (hsat : cnfSat m (transform c pfx) = true) :
    ∃ res, c.simulate (c.inputs.map (fun x => (x, m (pfx ++ x)))) = .ok res ∧
      ∀ o ∈ c.outputs, res.lookup o = some (m (pfx ++ o)) :=
  tseitin_sound_outputs c pfx m hok hwf hsat

/-! ### Completeness of the Tseitin encoding -/

theorem string_append_cancel {p a b : String} (h : p ++ a = p ++ b) : a = b := by
  have hd : (p ++ a).data = (p ++ b).data := by rw [h]
  rw [String.data_append, String.data_append] at hd
  exact String.ext (List.append_cancel_left hd)

theorem string_append_injective (p : String) :
    Function.Injective (fun a => p ++ a) := fun _ _ h => string_append_cancel h

theorem auxAsnOf_keys (pfx : String) (h : String → Option Bool) :
    ∀ t : Node, (auxAsnOf pfx h t).map Prod.fst = (auxNamesOf t).map (fun a => pfx ++ a) := by
  intro t
  induction t with
  | lit i b => simp [auxAsnOf, auxNamesOf, String.append_assoc]
  | var i nm => simp [auxAsnOf, auxNamesOf]
  | unop i op c ih => simp [auxAsnOf, auxNamesOf, ih, String.append_assoc]
  | binop i op a b iha ihb => simp [auxAsnOf, auxNamesOf, iha, ihb, String.append_assoc]

theorem circuitAuxAsn_keys (c : Circuit) (pfx : String) (h : String → Option Bool) :
    (circuitAuxAsn c pfx h).map Prod.fst = (circuitAuxNames c).map (fun a => pfx ++ a) := by
  rw [circuitAuxAsn, circuitAuxNames, List.map_flatMap, List.map_flatMap]
  apply List.flatMap_congr
  intro ke _
  obtain ⟨k, e⟩ := ke
  cases e with
  | lit i b => rfl
  | var i nm => rfl
  | unop i op ch => exact auxAsnOf_keys pfx h ch
  | binop i op x y => simp [auxAsnOf_keys]

theorem cnfSat_flatMap {α : Type} (m : String → Bool) (g : α → Cnf) (l : List α)
    (h : ∀ ke ∈ l, cnfSat m (g ke) = true) : cnfSat m (l.flatMap g) = true := by
  rw [cnfSat, List.all_eq_true]
  intro cl hcl
  obtain ⟨ke, hke, hmem⟩ := List.mem_flatMap.1 hcl
  exact (List.all_eq_true.1 (h ke hke)) cl hmem

/-- Completeness of the recursive helper `f`: an assignment that gives
every free signal its handler value and every auxiliary variable its
subtree value satisfies all emitted clauses, and the representing
literal carries the tree's value. -/
theorem fEnc_complete (pfx : String) (μ : String → Bool) (h : String → Option Bool) :
    ∀ t : Node,
      (∀ y ∈ t.supportList, ∃ b, h y = some b ∧ μ (pfx ++ y) = b) →
      (∀ p ∈ auxAsnOf pfx h t, μ p.1 = p.2) →
      (evalTreeF h t).isSome →
      cnfSat μ (fEnc pfx t).2 = true ∧
        litSat μ (fEnc pfx t).1 = (evalTreeF h t).getD false := by
  intro t
  induction t with
  | var i nm =>
    intro hvar _ _
    obtain ⟨b, hb, hmb⟩ := hvar nm (by simp [Node.supportList])
    constructor
    · rfl
    · rw [fEnc, litSat_SV, hmb]
      show b = (evalTreeF h (.var i nm)).getD false
      rw [evalTreeF, hb]
      rfl
  | lit i bv =>
    intro _ hind _
    have hown := hind (pfx ++ "s" ++ toString i, bv) (by simp [auxAsnOf])
    constructor
    · rw [fEnc]
      cases bv with
      | true =>
        apply (unit_sat μ _).2
        rw [if_pos rfl, litSat_SV]
        exact hown
      | false =>
        apply (unit_sat μ _).2
        rw [if_neg (by simp), litSat_invert, litSat_SV, hown]
        rfl
    · rw [fEnc, litSat_SV, hown]
      rfl
  | unop i op ch ih =>
    intro hvar hind hsome
    cases op
    have hchsome : (evalTreeF h ch).isSome := by
      rw [evalTreeF] at hsome
      cases hch : evalTreeF h ch with
      | none => rw [hch] at hsome; exact Bool.noConfusion hsome
      | some b => rfl
    obtain ⟨bch, hbch⟩ := Option.isSome_iff_exists.1 hchsome
    obtain ⟨ih1, ih2⟩ :=
      ih (fun y hy => hvar y (by simpa [Node.supportList] using hy))
        (fun p hp => hind p (by simp [auxAsnOf]; exact Or.inl hp)) hchsome
    have hown := hind (pfx ++ "s" ++ toString i,
        (evalTreeF h (.unop i .not ch)).getD false) (by simp [auxAsnOf])
    have hval : (evalTreeF h (.unop i .not ch)).getD false = !bch := by
      rw [evalTreeF, hbch]
      rfl
    constructor
    · rw [fEnc]
      have hpair : fEnc pfx ch = ((fEnc pfx ch).1, (fEnc pfx ch).2) := rfl
      rw [hpair]
      rw [cnfSat_append, ih1]
      rw [Bool.true_and]
      apply (mk_not_sat μ _ _).2
      rw [litSat_SV, hown, hval, ih2, hbch]
      rfl
    · rw [fEnc]
      have hpair : fEnc pfx ch = ((fEnc pfx ch).1, (fEnc pfx ch).2) := rfl
      rw [hpair]
      rw [litSat_SV]
      exact hown
  | binop i op x y ihx ihy =>
    intro hvar hind hsome
    have hxsome : (evalTreeF h x).isSome := by
      rw [evalTreeF] at hsome
      cases hch : evalTreeF h x with
      | none => rw [hch] at hsome; simp at hsome
      | some b => rfl
    have hysome : (evalTreeF h y).isSome := by
      rw [evalTreeF] at hsome
      cases hch : evalTreeF h y with
      | none =>
        rw [hch] at hsome
        cases evalTreeF h x <;> simp at hsome
      | some b => rfl
    obtain ⟨bx, hbx⟩ := Option.isSome_iff_exists.1 hxsome
    obtain ⟨by', hby⟩ := Option.isSome_iff_exists.1 hysome
    obtain ⟨ihx1, ihx2⟩ :=
      ihx (fun z hz => hvar z (by simp [Node.supportList]; exact Or.inl hz))
        (fun p hp => hind p (by simp [auxAsnOf]; exact Or.inl hp)) hxsome
    obtain ⟨ihy1, ihy2⟩ :=
      ihy (fun z hz => hvar z (by simp [Node.supportList]; exact Or.inr hz))
        (fun p hp => hind p (by simp [auxAsnOf]; exact Or.inr (Or.inl hp))) hysome
    have hown := hind (pfx ++ "s" ++ toString i,
        (evalTreeF h (.binop i op x y)).getD false) (by simp [auxAsnOf])
    have hval : (evalTreeF h (.binop i op x y)).getD false = op.eval bx by' := by
      rw [evalTreeF, hbx, hby]
      rfl
    constructor
    · rw [fEnc]
      have hpx : fEnc pfx x = ((fEnc pfx x).1, (fEnc pfx x).2) := rfl
      have hpy : fEnc pfx y = ((fEnc pfx y).1, (fEnc pfx y).2) := rfl
      rw [hpx, hpy]
      rw [cnfSat_append, cnfSat_append, ihx1, ihy1]
      rw [Bool.true_and, Bool.true_and]
      apply (mk_bin_sat μ op _ _ _).2
      rw [litSat_SV, hown, hval, ihx2, ihy2, hbx, hby]
      rfl
    · rw [fEnc]
      have hpx : fEnc pfx x = ((fEnc pfx x).1, (fEnc pfx x).2) := rfl
      have hpy : fEnc pfx y = ((fEnc pfx y).1, (fEnc pfx y).2) := rfl
      rw [hpx, hpy]
      rw [litSat_SV]
      exact hown

/-- Completeness of the clauses `transform` emits for one equation. -/
theorem transformEq_complete (pfx : String) (μ : String → Bool)
    (h : String → Option Bool) (k : String) (e : Node)
    (hvar : ∀ y ∈ e.supportList, ∃ b, h y = some b ∧ μ (pfx ++ y) = b)
    (hind : ∀ p ∈ (match e with
      | .var _ _ => ([] : List (String × Bool))
      | .lit _ _ => []
      | .unop _ _ ch => auxAsnOf pfx h ch
      | .binop _ _ a b => auxAsnOf pfx h a ++ auxAsnOf pfx h b), μ p.1 = p.2)
    (hsome : (evalTreeF h e).isSome)
    (hkey : μ (pfx ++ k) = (evalTreeF h e).getD false) :
    cnfSat μ (transformEq pfx k e) = true := by
  cases e with
  | var i nm =>
    obtain ⟨b, hb, hmb⟩ := hvar nm (by simp [Node.supportList])
    rw [transformEq]
    apply (mk_eq_sat μ _ _).2
    rw [litSat_SV, litSat_SV, hkey, hmb]
    rw [evalTreeF, hb]
    rfl
  | lit i bv =>
    rw [transformEq]
    have hkv : μ (pfx ++ k) = bv := by
      rw [hkey, evalTreeF]
      rfl
    cases bv with
    | true =>
      apply (unit_sat μ _).2
      rw [if_pos rfl, litSat_SV]
      exact hkv
    | false =>
      apply (unit_sat μ _).2
      rw [if_neg (by simp), litSat_invert, litSat_SV, hkv]
      rfl
  | unop i op ch =>
    cases op
    have hchsome : (evalTreeF h ch).isSome := by
      rw [evalTreeF] at hsome
      cases hch : evalTreeF h ch with
      | none => rw [hch] at hsome; exact Bool.noConfusion hsome
      | some b => rfl
    obtain ⟨bch, hbch⟩ := Option.isSome_iff_exists.1 hchsome
    obtain ⟨h1, h2⟩ :=
      fEnc_complete pfx μ h ch
        (fun y hy => hvar y (by simpa [Node.supportList] using hy))
        (fun p hp => hind p hp) hchsome
    rw [transformEq]
    have hpair : fEnc pfx ch = ((fEnc pfx ch).1, (fEnc pfx ch).2) := rfl
    rw [hpair]
    rw [cnfSat_append, h1, Bool.true_and]
    apply (mk_not_sat μ _ _).2
    rw [litSat_SV, hkey, h2, hbch]
    rw [evalTreeF, hbch]
    rfl
  | binop i op x y =>
    have hxsome : (evalTreeF h x).isSome := by
      rw [evalTreeF] at hsome
      cases hch : evalTreeF h x with
      | none => rw [hch] at hsome; simp at hsome
      | some b => rfl
    have hysome : (evalTreeF h y).isSome := by
      rw [evalTreeF] at hsome
      cases hch : evalTreeF h y with
      | none =>
        rw [hch] at hsome
        cases evalTreeF h x <;> simp at hsome
      | some b => rfl
    obtain ⟨bx, hbx⟩ := Option.isSome_iff_exists.1 hxsome
    obtain ⟨by', hby⟩ := Option.isSome_iff_exists.1 hysome
    obtain ⟨hx1, hx2⟩ :=
      fEnc_complete pfx μ h x
        (fun z hz => hvar z (by simp [Node.supportList]; exact Or.inl hz))
        (fun p hp => hind p (by simp; exact Or.inl hp)) hxsome
    obtain ⟨hy1, hy2⟩ :=
      fEnc_complete pfx μ h y
        (fun z hz => hvar z (by simp [Node.supportList]; exact Or.inr hz))
        (fun p hp => hind p (by simp; exact Or.inr hp)) hysome
    rw [transformEq]
    have hpx : fEnc pfx x = ((fEnc pfx x).1, (fEnc pfx x).2) := rfl
    have hpy : fEnc pfx y = ((fEnc pfx y).1, (fEnc pfx y).2) := rfl
    rw [hpx, hpy]
    rw [cnfSat_append, cnfSat_append, hx1, hy1, Bool.true_and, Bool.true_and]
    apply (mk_bin_sat μ op _ _ _).2
    rw [litSat_SV, hkey, hx2, hy2, hbx, hby]
    rw [evalTreeF, hbx, hby]
    rfl

/-- C2 (amended).  Tseitin completeness: for every valid circuit whose
auxiliary variable names `s<nodeId>` are pairwise distinct (always true
in the source, where node ids are globally unique) and collide with no
input or signal name, every total input assignment extends to a
satisfying assignment of `transform(C, p)` under the `p ++` renaming. -/
theorem claim_C2_tseitin_complete (c : Circuit) (pfx : String) (σfun : String → Bool)
    (hok : c.check = .ok ()) (hwf : c.WF)
    (hfr1 : (circuitAuxNames c).Nodup)
    (hfr2 : ∀ a ∈ circuitAuxNames c, a ∉ c.inputs ∧ c.equations.lookup a = none) :
    ∃ μ : String → Bool, cnfSat μ (transform c pfx) = true ∧
      ∀ x ∈ c.inputs, μ (pfx ++ x) = σfun x := by
  set inp : String → Option Bool :=
    fun y => if y ∈ c.inputs then some (σfun y) else none with hinp
  set big := c.equations.length + 1 with hbig
  set h : String → Option Bool := fun y => evalVarF c.equations inp big y with hh
  set seg1 := c.inputs.map (fun x => (pfx ++ x, σfun x)) with hseg1
  set seg2 := c.equations.map (fun ke => (pfx ++ ke.1, (h ke.1).getD false)) with hseg2
  set seg3 := circuitAuxAsn c pfx h with hseg3
  set A := seg1 ++ (seg2 ++ seg3) with hA
  set μ : String → Bool := fun nm => (A.lookup nm).getD false with hμ
  have hclosed : ClosedSupp c.equations inp := by
    apply closedSupp_of_check c hok
    intro y hy
    simp [hinp, hy]
  have hall : ∀ y, DepthLe c.equations y big := depthLe_all_of_check c hok
  have hkeys1 : seg1.map Prod.fst = c.inputs.map (fun x => pfx ++ x) := by
    rw [hseg1, List.map_map]
    rfl
  have hkeys2 : seg2.map Prod.fst = (c.equations.map Prod.fst).map (fun x => pfx ++ x) := by
    rw [hseg2, List.map_map, List.map_map]
    rfl
  have hkeys3 : seg3.map Prod.fst = (circuitAuxNames c).map (fun x => pfx ++ x) :=
    circuitAuxAsn_keys c pfx h
  have hnd : (A.map Prod.fst).Nodup := by
    rw [hA, List.map_append, List.map_append, List.nodup_append, List.nodup_append]
    refine ⟨?_, ⟨?_, ?_, ?_⟩, ?_⟩
    · rw [hkeys1]
      exact hwf.1.map (string_append_injective pfx)
    · rw [hkeys2]
      exact hwf.2.2.map (string_append_injective pfx)
    · rw [hkeys3]
      exact hfr1.map (string_append_injective pfx)
    · rw [hkeys2, hkeys3]
      intro nm hm2 hm3
      obtain ⟨k, hk, hk2⟩ := List.mem_map.1 hm2
      obtain ⟨a, ha, ha2⟩ := List.mem_map.1 hm3
      have hka : k = a := string_append_cancel (by rw [hk2, ha2])
      subst hka
      have hnone := (hfr2 k ha).2
      have hsome2 := (lookup_isSome_iff c.equations k).2 hk
      rw [hnone] at hsome2
      exact Bool.noConfusion hsome2
    · rw [hkeys1]
      intro nm hm1
      obtain ⟨x, hx, hx2⟩ := List.mem_map.1 hm1
      rw [List.mem_append]
      rintro (hm2 | hm3)
      · rw [hkeys2] at hm2
        obtain ⟨k, hk, hk2⟩ := List.mem_map.1 hm2
        have : x = k := string_append_cancel (by rw [hx2, hk2])
        subst this
        have hlk := inputs_unconstrained_of_check c hok x hx
        have := (lookup_isSome_iff c.equations x).2 hk
        rw [hlk] at this
        exact Bool.noConfusion this
      · rw [hkeys3] at hm3
        obtain ⟨a, ha, ha2⟩ := List.mem_map.1 hm3
        have : x = a := string_append_cancel (by rw [hx2, ha2])
        subst this
        exact (hfr2 x ha).1 hx
  have hmu : ∀ nm v, (nm, v) ∈ A → μ nm = v := by
    intro nm v hmem
    rw [hμ]
    show (A.lookup nm).getD false = v
    rw [lookup_of_mem_nodup hnd hmem]
    rfl
  have hhkey : ∀ k, (c.equations.lookup k).isSome → (h k).isSome := by
    intro k hk
    rw [hh]
    apply evalVarF_isSome c.equations inp hclosed
    exact Or.inr ⟨hk, hall k⟩
  have hvar_all : ∀ y, (y ∈ c.inputs ∨ (c.equations.lookup y).isSome) →
      ∃ b, h y = some b ∧ μ (pfx ++ y) = b := by
    intro y hy
    rcases hy with hy | hy
    · refine ⟨σfun y, ?_, ?_⟩
      · rw [hh]
        exact evalVarF_inp big (by simp [hinp, hy])
      · apply hmu
        rw [hA]
        exact List.mem_append.2 (Or.inl (List.mem_map.2 ⟨y, hy, rfl⟩))
    · obtain ⟨b, hb⟩ := Option.isSome_iff_exists.1 (hhkey y hy)
      refine ⟨b, hb, ?_⟩
      have hykey : y ∈ c.equations.map Prod.fst := (lookup_isSome_iff _ _).1 hy
      obtain ⟨ke, hke, hke1⟩ := List.mem_map.1 hykey
      have hmem : (pfx ++ y, (h y).getD false) ∈ seg2 := by
        rw [hseg2]
        exact List.mem_map.2 ⟨ke, hke, by rw [hke1]⟩
      have := hmu _ _ (by
        rw [hA]
        exact List.mem_append.2 (Or.inr (List.mem_append.2 (Or.inl hmem))))
      rw [this, hb]
      rfl
  refine ⟨μ, ?_, ?_⟩
  · rw [transform_eq_flatMap]
    apply cnfSat_flatMap
    intro ke hke
    obtain ⟨k, e⟩ := ke
    have hlk : c.equations.lookup k = some e := lookup_of_mem_nodup hwf.2.2 hke
    have hsupp : ∀ y ∈ e.supportList, y ∈ c.inputs ∨ (c.equations.lookup y).isSome :=
      fun y hy => support_closed_of_check c hok k e hlk y hy
    have hvar : ∀ y ∈ e.supportList, ∃ b, h y = some b ∧ μ (pfx ++ y) = b :=
      fun y hy => hvar_all y (hsupp y hy)
    have hsome : (evalTreeF h e).isSome := by
      apply evalTreeF_isSome_of_handler
      intro y hy
      obtain ⟨b, hb, _⟩ := hvar y hy
      rw [hb]
      rfl
    obtain ⟨bv, hbv⟩ := Option.isSome_iff_exists.1 hsome
    have hknotin : k ∉ c.inputs := by
      intro hk
      rw [inputs_unconstrained_of_check c hok k hk] at hlk
      exact Option.noConfusion hlk
    have hhk : h k = some bv := by
      rw [hh]
      exact evalVarF_big_eq c.equations inp (by simp [hinp, hknotin]) hlk
        (hall k) (Nat.le_refl _) hclosed hbv
    have hkey : μ (pfx ++ k) = (evalTreeF h e).getD false := by
      have hmem : (pfx ++ k, (h k).getD false) ∈ seg2 := by
        rw [hseg2]
        exact List.mem_map.2 ⟨(k, e), hke, rfl⟩
      have := hmu _ _ (by
        rw [hA]
        exact List.mem_append.2 (Or.inr (List.mem_append.2 (Or.inl hmem))))
      rw [this, hhk, hbv]
    apply transformEq_complete pfx μ h k e hvar ?_ hsome hkey
    intro p hp
    apply hmu
    rw [hA]
    refine List.mem_append.2 (Or.inr (List.mem_append.2 (Or.inr ?_)))
    rw [hseg3, circuitAuxAsn]
    exact List.mem_flatMap.2 ⟨(k, e), hke, hp⟩
  · intro x hx
    apply hmu
    rw [hA]
    exact List.mem_append.2 (Or.inl (List.mem_map.2 ⟨x, hx, rfl⟩))

/-- C2, counterexample to the claim as stated: `exCollide` is a valid
circuit, but its gate node ids make the helper `f` allocate the
auxiliary name `s0`, which collides with the input named `s0`.  The
emitted clauses force `s0 = ~a`, so no satisfying assignment of the CNF
extends the input assignment `a = true, s0 = true`. -/
theorem claim_C2_counterexample :
    exCollide.check = .ok () ∧ exCollide.WF ∧
      ¬ ∃ μ : String → Bool, cnfSat μ (transform exCollide "") = true ∧
          μ "a" = true ∧ μ "s0" = true := by
  refine ⟨rfl, by decide, ?_⟩
  rintro ⟨μ, hsat, ha, hs0⟩
  have hmem : [(("s0" : String), false), (("a" : String), false)] ∈
      transform exCollide "" := by decide
  have hcl := (List.all_eq_true.1 hsat) _ hmem
  simp [clauseSat, litSat, ha, hs0] at hcl

theorem claim_C2_tseitin_complete_witness :
    ∃ μ : String → Bool, cnfSat μ (transform exAnd "q_") = true ∧
      ∀ x ∈ exAnd.inputs, μ ("q_" ++ x) = true :=
  claim_C2_tseitin_complete exAnd "q_" (fun _ => true) rfl (by decide)
    (by decide)
    (by
      intro a ha
      rw [show circuitAuxNames exAnd = [] from rfl] at ha
      exact absurd ha (List.not_mem_nil a))

theorem claim_C1_tseitin_sound_witness :
    ∃ res, exAnd.simulate
        (exAnd.inputs.map (fun x => (x, asnFun [("q_a", true), ("q_o", true)] ("q_" ++ x)))) =
          .ok res ∧
      ∀ o ∈ exAnd.outputs,
        res.lookup o = some (asnFun [("q_a", true), ("q_o", true)] ("q_" ++ o)) :=
  claim_C1_tseitin_sound exAnd "q_" (asnFun [("q_a", true), ("q_o", true)])
    rfl (by decide) (by decide)

theorem claim_C6_cycle_detection_complete_witness :
    ∃ st w, exCyc.check = .error (.combLoop st w) :=
  (claim_C6_cycle_detection_complete exCyc).1 rfl rfl rfl
    ⟨"w", Relation.TransGen.single ⟨["w", "a"], rfl, by decide⟩⟩

theorem claim_C7_simulate_total_witness :
    ∃ m, exAnd.simulate [("a", true)] = .ok m ∧
      ∀ s, (m.lookup s).isSome ↔ (s ∈ exAnd.outputs ∨ s ∈ exAnd.equations.map Prod.fst) :=
  claim_C7_simulate_total exAnd [("a", true)] rfl (by decide)
    (by
      intro x
      by_cases hx : x = "a"
      · subst hx
        simp [lookup_cons_self, exAnd]
      · rw [lookup_cons_ne _ _ hx]
        simp [List.lookup, exAnd, hx])

/-! ### C5: the interface-mismatch pre-check -/

theorem setEqStr_iff (l1 l2 : List String) :
    setEqStr l1 l2 = true ↔ ∀ x, x ∈ l1 ↔ x ∈ l2 := by
  rw [setEqStr, Bool.and_eq_true, List.all_eq_true, List.all_eq_true]
  constructor
  · rintro ⟨h1, h2⟩ x
    constructor
    · intro hx
      simpa using h1 x hx
    · intro hx
      simpa using h2 x hx
  · intro h
    constructor
    · intro x hx
      simpa using (h x).1 hx
    · intro x hx
      simpa using (h x).2 hx

/-- C5.  Interface-mismatch pre-check: when the input name sets or the
output name sets of the two circuits are not identical, `check` returns
`(False, None)` for *every* solver function whatsoever — so the SAT
solver is never invoked — and, being a total function of its arguments,
it raises nothing. -/
theorem claim_C5_interface_mismatch (c1 c2 : Circuit)
    (hmm : ¬((∀ x, x ∈ c1.inputs ↔ x ∈ c2.inputs) ∧
             (∀ x, x ∈ c1.outputs ↔ x ∈ c2.outputs))) :
    ∀ solve : Cnf → Solution, check solve c1 c2 = (false, none) := by
  intro solve
  have hb : (setEqStr c1.inputs c2.inputs && setEqStr c1.outputs c2.outputs) = false := by
    cases hi : setEqStr c1.inputs c2.inputs with
    | false => rfl
    | true =>
      cases ho : setEqStr c1.outputs c2.outputs with
      | false => rfl
      | true =>
        exact absurd ⟨(setEqStr_iff _ _).1 hi, (setEqStr_iff _ _).1 ho⟩ hmm
  rw [check, hb]
  rfl

theorem claim_C5_interface_mismatch_witness :
    check bruteSolve exAnd exTwoIn = (false, none) :=
  claim_C5_interface_mismatch exAnd exTwoIn
    (by
      rintro ⟨h1, _⟩
      exact absurd ((h1 "c").2 (by decide)) (by decide))
    bruteSolve

/-! ### The brute-force solver meets the solver contract -/

theorem allAsn_keys : ∀ (xs : List String) (a : List (String × Bool)),
    a ∈ allAsn xs → a.map Prod.fst = xs := by
  intro xs
  induction xs with
  | nil =>
    intro a ha
    rw [allAsn] at ha
    simp at ha
    simp [ha]
  | cons x rest ih =>
    intro a ha
    rw [allAsn] at ha
    obtain ⟨a', ha', hmem⟩ := List.mem_flatMap.1 ha
    rcases List.mem_cons.1 hmem with h | h
    · subst h
      simp [ih a' ha']
    · simp only [List.mem_cons, List.not_mem_nil, or_false] at h
      subst h
      simp [ih a' ha']

theorem allAsn_restrict (m : String → Bool) :
    ∀ xs : List String, xs.map (fun x => (x, m x)) ∈ allAsn xs := by
  intro xs
  induction xs with
  | nil => rw [allAsn]; simp
  | cons x rest ih =>
    rw [allAsn]
    apply List.mem_flatMap.2
    refine ⟨rest.map (fun x => (x, m x)), ih, ?_⟩
    cases hmx : m x <;> simp [hmx]

theorem list_any_congr {α : Type} (p q : α → Bool) (l : List α)
    (h : ∀ x ∈ l, p x = q x) : l.any p = l.any q := by
  induction l with
  | nil => rfl
  | cons a l ih =>
    rw [List.any_cons, List.any_cons, h a (List.mem_cons_self _ _),
      ih (fun x hx => h x (List.mem_cons_of_mem _ hx))]

theorem list_all_congr {α : Type} (p q : α → Bool) (l : List α)
    (h : ∀ x ∈ l, p x = q x) : l.all p = l.all q := by
  induction l with
  | nil => rfl
  | cons a l ih =>
    rw [List.all_cons, List.all_cons, h a (List.mem_cons_self _ _),
      ih (fun x hx => h x (List.mem_cons_of_mem _ hx))]

theorem cnfSat_congr (f : Cnf) (m1 m2 : String → Bool)
    (h : ∀ x ∈ cnfVars f, m1 x = m2 x) : cnfSat m1 f = cnfSat m2 f := by
  rw [cnfSat, cnfSat]
  apply list_all_congr
  intro cl hcl
  rw [clauseSat, clauseSat]
  apply list_any_congr
  intro l hl
  rw [litSat, litSat, h l.1]
  exact List.mem_flatMap.2 ⟨cl, hcl, List.mem_map.2 ⟨l, hl, rfl⟩⟩

theorem bruteSolve_ok : SolverOk bruteSolve := by
  constructor
  · intro f a h
    rw [bruteSolve] at h
    cases hf : ((allAsn (cnfVars f).dedup).find? (fun a => cnfSat (asnFun a) f)) with
    | none => rw [hf] at h; exact Solution.noConfusion h
    | some a' =>
      rw [hf] at h
      cases h
      have h5 := List.find?_some hf
      simpa using h5
  · intro f a h x
    rw [bruteSolve] at h
    cases hf : ((allAsn (cnfVars f).dedup).find? (fun a => cnfSat (asnFun a) f)) with
    | none => rw [hf] at h; exact Solution.noConfusion h
    | some a' =>
      rw [hf] at h
      cases h
      have hmem := List.mem_of_find?_eq_some hf
      have hkeys := allAsn_keys _ _ hmem
      rw [lookup_isSome_iff, hkeys, List.mem_dedup]
  · intro f h m
    rw [bruteSolve] at h
    cases hf : ((allAsn (cnfVars f).dedup).find? (fun a => cnfSat (asnFun a) f)) with
    | some a' => rw [hf] at h; exact Solution.noConfusion h
    | none =>
      have hall := List.find?_eq_none.1 hf
      have hmem := allAsn_restrict m (cnfVars f).dedup
      have hne := hall _ hmem
      have hcongr : cnfSat (asnFun ((cnfVars f).dedup.map (fun x => (x, m x)))) f =
          cnfSat m f := by
        apply cnfSat_congr
        intro x hx
        rw [asnFun]
        rw [lookup_map_fn]
        rw [if_pos (List.mem_dedup.2 hx)]
        rfl
      rw [hcongr] at hne
      simpa using hne

/-! ### Structure and forcing of the miter CNF -/

theorem foldl_append_acc2 {α : Type} (g1 g2 : α → Cnf) :
    ∀ (l : List α) (init : Cnf),
      l.foldl (fun acc x => acc ++ g1 x ++ g2 x) init =
        init ++ l.flatMap (fun x => g1 x ++ g2 x) := by
  intro l
  induction l with
  | nil => intro init; simp
  | cons a rest ih =>
    intro init
    rw [List.foldl_cons, ih]
    simp [List.append_assoc]

theorem cnfSat_flatMap_inv {α : Type} (m : String → Bool) (g : α → Cnf) (l : List α)
    (h : cnfSat m (l.flatMap g) = true) : ∀ x ∈ l, cnfSat m (g x) = true := by
  intro x hx
  apply cnfSat_of_sublist m _ h
  intro cl hcl
  exact List.mem_flatMap.2 ⟨x, hx, hcl⟩

theorem miterCnf_unfold (c1 c2 : Circuit) :
    miterCnf c1 c2 =
      ((transform c1 "c1_" ++ transform c2 "c2_") ++
        (c1.inputs.flatMap (fun x =>
          mk_eq (SV x) (SV ("c1_" ++ x)) ++ mk_eq (SV x) (SV ("c2_" ++ x))) ++
        ((if c1.outputs.length == 1 then
          mk_xor (SV "mitter_output") (SV ("c1_" ++ c1.outputs.headD ""))
            (SV ("c2_" ++ c1.outputs.headD ""))
         else miterLoop (SV "mitter_output") (c1.outputs.headD "")
            c1.outputs.length 0 c1.outputs) ++
        [[SV "mitter_output"]]))) := by
  unfold miterCnf
  rw [foldl_append_acc2]
  simp [List.append_assoc]

theorem foldl_or_any (X : String → Bool) :
    ∀ (l : List String) (acc : Bool),
      l.foldl (fun a o => a || X o) acc = (acc || l.any X) := by
  intro l
  induction l with
  | nil => intro acc; simp
  | cons o rest ih =>
    intro acc
    rw [List.foldl_cons, ih, List.any_cons, Bool.or_assoc]

/-- Forcing of the output-disagreement chain from index 2 on: the miter
output carries the OR of the accumulated disagreement and the remaining
per-output XORs. -/
theorem miterLoop_chain (m : String → Bool) (s : Lit) (os0 : String) (n : Nat) :
    ∀ (rest : List String) (i : Nat), 2 ≤ i → i + rest.length = n →
      cnfSat m (miterLoop s os0 n i rest) = true →
      litSat m s =
        rest.foldl (fun acc o => acc || Bool.xor (m ("c1_" ++ o)) (m ("c2_" ++ o)))
          (litSat m (if i == n then s else SV ("mitter_or_" ++ toString (i - 1)))) := by
  intro rest
  induction rest with
  | nil =>
    intro i hi hlen _
    have hin : i = n := by simpa using hlen
    subst hin
    rw [if_pos (beq_self_eq_true i)]
    rfl
  | cons o rest' ih =>
    intro i hi hlen hsat
    rw [List.length_cons] at hlen
    have hine : i ≠ n := by omega
    have hi1 : (i == 1) = false := beq_eq_false_iff_ne.2 (by omega)
    have hlt : 1 < i := by omega
    rw [miterLoop] at hsat
    simp only [hi1, Bool.false_eq_true, if_false, if_pos hlt, cnfSat_append,
      Bool.and_eq_true] at hsat
    obtain ⟨⟨hxor, hor⟩, hrec⟩ := hsat
    have hX := (mk_xor_sat m _ _ _).1 hxor
    have hOr := (mk_or_sat m _ _ _).1 hor
    have hih := ih (i + 1) (by omega) (by omega) hrec
    rw [show (i + 1) - 1 = i from rfl] at hih
    have hcond : (i == n) = false := beq_eq_false_iff_ne.2 hine
    rw [List.foldl_cons]
    simp only [hcond, Bool.false_eq_true, if_false]
    rw [hih, hOr, hX]
    simp only [litSat_SV]

/-- With at least two outputs, the miter output equals the OR of the
per-output disagreement XORs. -/
theorem miterLoop_forces (m : String → Bool) (s : Lit) (os : List String)
    (hn : 2 ≤ os.length)
    (hsat : cnfSat m (miterLoop s (os.headD "") os.length 0 os) = true) :
    litSat m s =
      os.any (fun o => Bool.xor (m ("c1_" ++ o)) (m ("c2_" ++ o))) := by
  match os, hn with
  | o0 :: o1 :: rest2, _ =>
    rw [miterLoop] at hsat
    simp only [show ((0 : Nat) == 1) = false from rfl, Bool.false_eq_true, if_false,
      if_neg (by omega : ¬ ((1 : Nat) < 0)), cnfSat_append, Bool.and_eq_true] at hsat
    obtain ⟨⟨hxor0, _⟩, hsat⟩ := hsat
    rw [miterLoop] at hsat
    simp only [show ((1 : Nat) == 1) = true from rfl, if_true, cnfSat_append,
      Bool.and_eq_true] at hsat
    obtain ⟨⟨hxor1, hor1⟩, hrec⟩ := hsat
    have hX0 := (mk_xor_sat m _ _ _).1 hxor0
    have hX1 := (mk_xor_sat m _ _ _).1 hxor1
    have hOr1 := (mk_or_sat m _ _ _).1 hor1
    rw [show (o0 :: o1 :: rest2).headD "" = o0 from rfl] at hOr1 hrec
    have hih := miterLoop_chain m s o0
      (o0 :: o1 :: rest2).length rest2 2 (by omega)
      (by simp only [List.length_cons]; omega) hrec
    have hcar2 : (if (2 : Nat) == (o0 :: o1 :: rest2).length then s
        else SV ("mitter_or_" ++ toString ((2 : Nat) - 1))) =
        (if 0 + 1 + 1 == (o0 :: o1 :: rest2).length then s else SV "mitter_or_1") := rfl
    rw [hcar2] at hih
    rw [hih, foldl_or_any, hOr1, hX0, hX1]
    simp only [litSat_SV]
    rw [List.any_cons, List.any_cons]
    rw [Bool.or_assoc]

/-- Decomposition of a satisfying assignment of the miter CNF. -/
theorem miterCnf_sat_parts (c1 c2 : Circuit) (m : String → Bool)
    (hsat : cnfSat m (miterCnf c1 c2) = true) (hne : c1.outputs ≠ []) :
    cnfSat m (transform c1 "c1_") = true ∧ cnfSat m (transform c2 "c2_") = true ∧
      (∀ x ∈ c1.inputs, m ("c1_" ++ x) = m x ∧ m ("c2_" ++ x) = m x) ∧
      (c1.outputs.any (fun o => Bool.xor (m ("c1_" ++ o)) (m ("c2_" ++ o)))) = true := by
  rw [miterCnf_unfold] at hsat
  simp only [cnfSat_append, Bool.and_eq_true] at hsat
  obtain ⟨⟨h1, h2⟩, hties, hmit, hunit⟩ := hsat
  have hs : m "mitter_output" = true := by
    have := (unit_sat m _).1 hunit
    rwa [litSat_SV] at this
  refine ⟨h1, h2, ?_, ?_⟩
  · intro x hx
    have hx2 := cnfSat_flatMap_inv m _ _ hties x hx
    rw [cnfSat_append, Bool.and_eq_true] at hx2
    obtain ⟨he1, he2⟩ := hx2
    have g1 := (mk_eq_sat m _ _).1 he1
    have g2 := (mk_eq_sat m _ _).1 he2
    rw [litSat_SV, litSat_SV] at g1
    rw [litSat_SV, litSat_SV] at g2
    exact ⟨g1.symm, g2.symm⟩
  · by_cases h1len : c1.outputs.length == 1
    · rw [if_pos h1len] at hmit
      have hlen1 : c1.outputs.length = 1 := by simpa using h1len
      obtain ⟨o, ho⟩ := List.length_eq_one.1 hlen1
      rw [ho] at hmit ⊢
      have hx := (mk_xor_sat m _ _ _).1 hmit
      rw [litSat_SV, litSat_SV, litSat_SV, hs] at hx
      simp only [List.headD_cons] at hx
      rw [List.any_cons, List.any_nil, Bool.or_false]
      exact hx.symm
    · rw [if_neg (by simpa using h1len)] at hmit
      have hlen2 : 2 ≤ c1.outputs.length := by
        have hne2 : c1.outputs.length ≠ 0 := by
          intro h0
          exact hne (List.length_eq_zero.1 h0)
        have hne1 : c1.outputs.length ≠ 1 := by simpa using h1len
        omega
      have := miterLoop_forces m (SV "mitter_output") c1.outputs hlen2 hmit
      rw [litSat_SV, hs] at this
      exact this.symm

/-! ### C3 and C4: verdicts of the equivalence checker -/

/-- C3 (amended).  Self-equivalence: on every valid circuit with at
least one output, `check(C, C)` returns `(True, None)` for every solver
satisfying the solver contract: the miter CNF of a circuit against
itself is unsatisfiable. -/
theorem claim_C3_self_equivalence (c : Circuit) (hok : c.check = .ok ()) (hwf : c.WF)
    (hne : c.outputs ≠ []) (solve : Cnf → Solution) (hs : SolverOk solve) :
    check solve c c = (true, none) := by
  have hguard : (setEqStr c.inputs c.inputs && setEqStr c.outputs c.outputs) = true := by
    rw [(setEqStr_iff _ _).2 (fun x => Iff.rfl), (setEqStr_iff _ _).2 (fun x => Iff.rfl)]
    rfl
  have hunsat : ∀ mm : String → Bool, cnfSat mm (miterCnf c c) = false := by
    intro mm
    cases hcs : cnfSat mm (miterCnf c c) with
    | false => rfl
    | true =>
      exfalso
      obtain ⟨h1, h2, hties, hany⟩ := miterCnf_sat_parts c c mm hcs hne
      have hinp : (fun y => if y ∈ c.inputs then some (mm ("c1_" ++ y)) else none) =
          (fun y => if y ∈ c.inputs then some (mm ("c2_" ++ y)) else none) := by
        funext y
        by_cases hy : y ∈ c.inputs
        · rw [if_pos hy, if_pos hy, (hties y hy).1, (hties y hy).2]
        · rw [if_neg hy, if_neg hy]
      obtain ⟨o, ho, hxo⟩ := List.any_eq_true.1 hany
      have hkey := outputs_defined_of_check c hok o ho
      obtain ⟨e, he⟩ := Option.isSome_iff_exists.1 hkey
      obtain ⟨b1, hv1, hm1⟩ := tseitin_signal_values c "c1_" mm hok h1
        (c.equations.length + 1) o (depthLe_all_of_check c hok o) e he
      obtain ⟨b2, hv2, hm2⟩ := tseitin_signal_values c "c2_" mm hok h2
        (c.equations.length + 1) o (depthLe_all_of_check c hok o) e he
      rw [hinp] at hv1
      rw [hv1] at hv2
      cases hv2
      rw [hm1, hm2, Bool.xor_self] at hxo
      exact Bool.noConfusion hxo
  rw [check]
  simp only [hguard, Bool.not_true, Bool.false_eq_true, if_false]
  cases hres : solve (miterCnf c c) with
  | unsat => rfl
  | sat a =>
    have hsnd := hs.sat_sound _ _ hres
    rw [hunsat (asnFun a)] at hsnd
    exact Bool.noConfusion hsnd

/-- C3, counterexample to the claim as stated: on a valid circuit with
*no* outputs the miter CNF degenerates to the unconstrained unit clause
on the miter output, which is satisfiable, so `check(C, C)` reports the
circuit different from itself. -/
theorem claim_C3_counterexample :
    exEmpty.check = .ok () ∧ exEmpty.WF ∧
      check bruteSolve exEmpty exEmpty = (false, some [("mitter_output", true)]) :=
  ⟨rfl, by decide, rfl⟩

theorem claim_C3_self_equivalence_witness :
    check bruteSolve exAnd exAnd = (true, none) :=
  claim_C3_self_equivalence exAnd rfl (by decide) (by decide) bruteSolve bruteSolve_ok

/-- C4 (amended).  Counterexample validity: for valid circuits with at
least one output, whenever `check` returns `(False, ce)` with a
non-`None` counterexample, simulating both circuits on the restriction
of `ce` to the (unprefixed) input names succeeds and yields different
values on at least one output. -/
theorem claim_C4_counterexample_valid (c1 c2 : Circuit) (solve : Cnf → Solution)
    (hs : SolverOk solve) (hok1 : c1.check = .ok ()) (hwf1 : c1.WF)
    (hok2 : c2.check = .ok ()) (hwf2 : c2.WF) (hne : c1.outputs ≠ [])
    (asn : List (String × Bool))
    (hres : check solve c1 c2 = (false, some asn)) :
    ∃ m1 m2, c1.simulate (c1.inputs.map (fun x => (x, asnFun asn x))) = .ok m1 ∧
      c2.simulate (c2.inputs.map (fun x => (x, asnFun asn x))) = .ok m2 ∧
      ∃ o ∈ c1.outputs, m1.lookup o ≠ m2.lookup o := by
  rw [check] at hres
  by_cases hguard : (setEqStr c1.inputs c2.inputs && setEqStr c1.outputs c2.outputs) = true
  case neg =>
    exfalso
    have hgf : (setEqStr c1.inputs c2.inputs && setEqStr c1.outputs c2.outputs) = false := by
      cases h : (setEqStr c1.inputs c2.inputs && setEqStr c1.outputs c2.outputs) with
      | false => rfl
      | true => exact absurd h hguard
    rw [hgf] at hres
    simp at hres
  case pos =>
    simp only [hguard, Bool.not_true, Bool.false_eq_true, if_false] at hres
    cases hsol : solve (miterCnf c1 c2) with
    | unsat =>
      rw [hsol] at hres
      simp at hres
    | sat a =>
      rw [hsol] at hres
      simp only [Prod.mk.injEq, Option.some.injEq] at hres
      obtain ⟨_, hasn⟩ := hres
      have hsat := hs.sat_sound _ _ hsol
      rw [hasn] at hsat
      obtain ⟨h1, h2, hties, hany⟩ := miterCnf_sat_parts c1 c2 (asnFun asn) hsat hne
      have hg2 := hguard
      rw [Bool.and_eq_true] at hg2
      have hIeq : ∀ x, x ∈ c1.inputs ↔ x ∈ c2.inputs :=
        (setEqStr_iff _ _).1 hg2.1
      have hOeq : ∀ x, x ∈ c1.outputs ↔ x ∈ c2.outputs :=
        (setEqStr_iff _ _).1 hg2.2
      obtain ⟨m1, hs1, ho1⟩ := tseitin_sound_outputs c1 "c1_" (asnFun asn) hok1 hwf1 h1
      obtain ⟨m2, hs2, ho2⟩ := tseitin_sound_outputs c2 "c2_" (asnFun asn) hok2 hwf2 h2
      have hmap1 : c1.inputs.map (fun x => (x, asnFun asn ("c1_" ++ x))) =
          c1.inputs.map (fun x => (x, asnFun asn x)) :=
        List.map_congr_left (fun x hx => by rw [(hties x hx).1])
      have hmap2 : c2.inputs.map (fun x => (x, asnFun asn ("c2_" ++ x))) =
          c2.inputs.map (fun x => (x, asnFun asn x)) :=
        List.map_congr_left (fun x hx => by rw [(hties x ((hIeq x).2 hx)).2])
      rw [hmap1] at hs1
      rw [hmap2] at hs2
      refine ⟨m1, m2, hs1, hs2, ?_⟩
      obtain ⟨o, ho, hxo⟩ := List.any_eq_true.1 hany
      refine ⟨o, ho, ?_⟩
      rw [ho1 o ho, ho2 o ((hOeq o).1 ho)]
      intro hcon
      rw [Option.some.injEq] at hcon
      rw [hcon, Bool.xor_self] at hxo
      exact Bool.noConfusion hxo

/-- C4, counterexample to the claim as stated: on a valid circuit with
no outputs, `check(C, C)` returns `(False, ce)` with `ce ≠ None`, yet
there is no output on which the two simulations could differ. -/
theorem claim_C4_counterexample :
    exEmpty.check = .ok () ∧
      check bruteSolve exEmpty exEmpty = (false, some [("mitter_output", true)]) ∧
      exEmpty.outputs = [] :=
  ⟨rfl, rfl, rfl⟩

theorem claim_C4_counterexample_valid_witness :
    ∃ m1 m2,
      exId.simulate (exId.inputs.map
        (fun x => (x, asnFun [("c1_a", false), ("a", false), ("c2_a", false),
          ("c1_o", false), ("c2_o", true), ("mitter_output", true)] x))) = .ok m1 ∧
      exNot.simulate (exNot.inputs.map
        (fun x => (x, asnFun [("c1_a", false), ("a", false), ("c2_a", false),
          ("c1_o", false), ("c2_o", true), ("mitter_output", true)] x))) = .ok m2 ∧
      ∃ o ∈ exId.outputs, m1.lookup o ≠ m2.lookup o :=
  claim_C4_counterexample_valid exId exNot bruteSolve bruteSolve_ok
    rfl (by decide) rfl (by decide) (by decide)
    [("c1_a", false), ("a", false), ("c2_a", false),
      ("c1_o", false), ("c2_o", true), ("mitter_output", true)] rfl

/-! ### C9: clean() preserves the construction invariants

The proof threads a single invariant through the collapse loop — every
support name of a current equation is reachable from its key in the
original dependency graph — and then shows each of the four checks on
the cleaned circuit from that invariant, the transitivity of the
computed closure, and the acyclicity of the original graph. -/

theorem transGen_lift {α : Type} {r s : α → α → Prop}
    (h : ∀ a b, r a b → Relation.TransGen s a b) {x y : α}
    (hxy : Relation.TransGen r x y) : Relation.TransGen s x y := by
  induction hxy with
  | single hab => exact h _ _ hab
  | tail _ hbc ih => exact ih.trans (h _ _ hbc)

theorem reflTransGen_lift {α : Type} {r s : α → α → Prop}
    (h : ∀ a b, r a b → Relation.TransGen s a b) {x y : α}
    (hxy : Relation.ReflTransGen r x y) : Relation.ReflTransGen s x y := by
  induction hxy with
  | refl => exact Relation.ReflTransGen.refl
  | tail _ hbc ih => exact ih.trans (h _ _ hbc).to_reflTransGen

theorem transGen_append {α : Type} {r : α → α → Prop} {x z y : α}
    (h1 : Relation.TransGen r x z) (h2 : Relation.ReflTransGen r z y) :
    Relation.TransGen r x y := by
  induction h2 with
  | refl => exact h1
  | tail _ hbc ih => exact ih.tail hbc

theorem transGen_last {α : Type} {r : α → α → Prop} {x y : α}
    (h : Relation.TransGen r x y) : ∃ a, r a y := by
  induction h with
  | single hab => exact ⟨_, hab⟩
  | tail _ hbc _ => exact ⟨_, hbc⟩

theorem firstErr_error (g : String → Except PyErr Unit) (zs : List String) (e : PyErr)
    (h : firstErr g zs = .error e) : ∃ z ∈ zs, g z = .error e := by
  induction zs with
  | nil => rw [firstErr] at h; exact Except.noConfusion h
  | cons z zs ih =>
    rw [firstErr] at h
    cases hz : g z with
    | error f =>
      rw [hz] at h
      injection h with h'
      subst h'
      exact ⟨z, List.mem_cons_self _ _, hz⟩
    | ok u =>
      cases u
      rw [hz] at h
      obtain ⟨a, ha, hga⟩ := ih h
      exact ⟨a, List.mem_cons_of_mem _ ha, hga⟩

/-- A combinational-loop error of `visit` can only come from an actual
cycle, provided every stack element already reaches the visited name. -/
theorem visitF_combLoop_cycle (deps : List (String × List String)) :
    ∀ fuel stack y st w, (∀ s ∈ stack, Relation.TransGen (dep deps) s y) →
      visitF deps fuel stack y = .error (.combLoop st w) →
      ∃ x, Relation.TransGen (dep deps) x x := by
  intro fuel
  induction fuel with
  | zero =>
    intro stack y st w hst h
    rw [visitF] at h
    by_cases hmem : y ∈ stack
    · exact ⟨y, hst y hmem⟩
    · rw [if_neg hmem] at h
      cases hlk : deps.lookup y with
      | none => rw [hlk] at h; exact Except.noConfusion h
      | some zs =>
        rw [hlk] at h
        injection h with h'
        exact PyErr.noConfusion h'
  | succ f ih =>
    intro stack y st w hst h
    rw [visitF] at h
    by_cases hmem : y ∈ stack
    · exact ⟨y, hst y hmem⟩
    · rw [if_neg hmem] at h
      cases hlk : deps.lookup y with
      | none => rw [hlk] at h; exact Except.noConfusion h
      | some zs =>
        rw [hlk] at h
        obtain ⟨z, hz, hcall⟩ := firstErr_error _ _ _ h
        have hdep : dep deps y z := ⟨zs, hlk, hz⟩
        apply ih (stack ++ [y]) z st w ?_ hcall
        intro s hs
        rcases List.mem_append.1 hs with hs | hs
        · exact (hst s hs).tail hdep
        · simp only [List.mem_singleton] at hs
          subst hs
          exact Relation.TransGen.single hdep

/-- On an acyclic graph the DFS succeeds from every start, with the fuel
`Circuit.check` provides. -/
theorem visitF_ok_of_noCycle (deps : List (String × List String))
    (hnc : ¬ ∃ x, Relation.TransGen (dep deps) x x) :
    ∀ y, visitF deps (deps.length + 1) [] y = .ok () := by
  intro y
  have hcard : ((deps.map Prod.fst).toFinset \ ([] : List String).toFinset).card <
      deps.length + 1 := by
    have hle : ((deps.map Prod.fst).toFinset).card ≤ deps.length := by
      calc ((deps.map Prod.fst).toFinset).card
          ≤ (deps.map Prod.fst).length := List.toFinset_card_le _
        _ = deps.length := List.length_map _ _
    simpa using Nat.lt_succ_of_le hle
  rcases visitF_ok_or_combLoop deps (deps.length + 1) [] y List.nodup_nil
      (fun s hs => absurd hs (List.not_mem_nil s)) hcard with hokv | ⟨st, w, he⟩
  · exact hokv
  · exact absurd (visitF_combLoop_cycle deps (deps.length + 1) [] y st w
      (fun s hs => absurd hs (List.not_mem_nil s)) he) hnc

theorem loopCheck_ok_of_all (deps : List (String × List String)) (xs : List String)
    (h : ∀ x ∈ xs, visitF deps (deps.length + 1) [] x = .ok ()) :
    loopCheck deps xs = .ok () := by
  induction xs with
  | nil => rfl
  | cons x xs ih =>
    rw [loopCheck, h x (List.mem_cons_self _ _)]
    exact ih (fun a ha => h a (List.mem_cons_of_mem _ ha))

/-- Converse assembly of `Circuit.check`: the four invariants imply a
successful check. -/
theorem check_ok_of_parts (c : Circuit) (h1 : c.firstUndefinedOutput = none)
    (h2 : c.firstConstrainedInput = none) (h3 : c.firstUndefinedSignal = none)
    (hnc : ¬ ∃ x, Relation.TransGen (dep (depsOf c.equations)) x x) :
    c.check = .ok () := by
  rw [Circuit.check, h1, h2, h3]
  exact loopCheck_ok_of_all _ _ (fun x _ => visitF_ok_of_noCycle _ hnc x)

theorem updateEq_keys (eqs : List (String × Node)) (k : String) (e : Node) :
    (updateEq eqs k e).map Prod.fst = eqs.map Prod.fst := by
  rw [updateEq, List.map_map]
  apply List.map_congr_left
  intro ke _
  by_cases h : ke.1 = k
  · simp [h]
  · simp [h]

theorem lookup_updateEq_self (eqs : List (String × Node)) (k : String) (e : Node)
    (hk : k ∈ eqs.map Prod.fst) : (updateEq eqs k e).lookup k = some e := by
  induction eqs with
  | nil => simp at hk
  | cons q l ih =>
    obtain ⟨a, b⟩ := q
    simp only [updateEq, List.map_cons]
    by_cases hak : a = k
    · subst hak
      simp only [if_pos rfl]
      exact lookup_cons_self _ _ _
    · simp only [if_neg hak]
      rw [lookup_cons_ne _ _ (fun h => hak h.symm)]
      simp only [List.map_cons, List.mem_cons] at hk
      rcases hk with hk | hk
      · exact absurd hk.symm hak
      · rw [updateEq] at ih
        exact ih hk

theorem lookup_updateEq_ne (eqs : List (String × Node)) (k : String) (e : Node)
    (x : String) (hx : x ≠ k) : (updateEq eqs k e).lookup x = eqs.lookup x := by
  induction eqs with
  | nil => rfl
  | cons q l ih =>
    obtain ⟨a, b⟩ := q
    simp only [updateEq, List.map_cons]
    by_cases hak : a = k
    · subst hak
      simp only [if_pos rfl, if_true]
      rw [lookup_cons_ne _ _ hx, lookup_cons_ne _ _ hx]
      rw [updateEq] at ih
      exact ih
    · simp only [if_neg hak]
      by_cases hxa : x = a
      · subst hxa
        rw [lookup_cons_self, lookup_cons_self]
      · rw [lookup_cons_ne _ _ hxa, lookup_cons_ne _ _ hxa]
        rw [updateEq] at ih
        exact ih

theorem collapse_subset_keys (c : Circuit) (hok : c.check = .ok ()) :
    ∀ y ∈ collapseList c, y ∈ c.equations.map Prod.fst := by
  intro y hy
  rw [collapseList, List.mem_filter] at hy
  obtain ⟨hmem, hpred⟩ := hy
  rw [Bool.and_eq_true] at hpred
  have hni : ¬ y ∈ c.inputs := by simpa using hpred.2
  rcases List.mem_append.1 hmem with h | h
  · rcases List.mem_append.1 h with h | h
    · exact (lookup_isSome_iff _ _).1 (outputs_defined_of_check c hok y h)
    · exact h
  · exact absurd h hni

/-- Every name in the support of a substituted tree is reachable (in the
current dependency graph) from some name in the support of the original
tree. -/
theorem substF_supp (eqs : List (String × Node)) (K : List String) :
    ∀ fuel t t', substF eqs K fuel t = some t' →
      ∀ y ∈ Node.supportList t', ∃ z ∈ Node.supportList t,
        Relation.ReflTransGen (dep (depsOf eqs)) z y := by
  intro fuel
  induction fuel with
  | zero =>
    intro t
    induction t with
    | lit i b =>
      intro t' h y hy
      rw [substF] at h
      injection h with h'
      subst h'
      simp [Node.supportList] at hy
    | var i x =>
      intro t' h y hy
      rw [substF] at h
      by_cases hx : x ∈ K
      · rw [if_pos hx] at h
        cases hlk : eqs.lookup x with
        | none => rw [hlk] at h; exact Option.noConfusion h
        | some e => rw [hlk] at h; exact Option.noConfusion h
      · rw [if_neg hx] at h
        injection h with h'
        subst h'
        simp only [Node.supportList, List.mem_singleton] at hy
        subst hy
        exact ⟨y, by simp [Node.supportList], Relation.ReflTransGen.refl⟩
    | unop i op ch ih =>
      intro t' h y hy
      rw [substF] at h
      cases hc : substF eqs K 0 ch with
      | none => rw [hc] at h; exact Option.noConfusion h
      | some c2 =>
        rw [hc] at h
        injection h with h'
        subst h'
        simp only [Node.supportList] at hy ⊢
        exact ih c2 hc y hy
    | binop i op a b iha ihb =>
      intro t' h y hy
      rw [substF] at h
      cases ha : substF eqs K 0 a with
      | none => rw [ha] at h; exact Option.noConfusion h
      | some a2 =>
        rw [ha] at h
        cases hb : substF eqs K 0 b with
        | none => rw [hb] at h; exact Option.noConfusion h
        | some b2 =>
          rw [hb] at h
          injection h with h'
          subst h'
          simp only [Node.supportList, List.mem_append] at hy ⊢
          rcases hy with hy | hy
          · obtain ⟨z, hz, hr⟩ := iha a2 ha y hy
            exact ⟨z, Or.inl hz, hr⟩
          · obtain ⟨z, hz, hr⟩ := ihb b2 hb y hy
            exact ⟨z, Or.inr hz, hr⟩
  | succ f ihf =>
    intro t
    induction t with
    | lit i b =>
      intro t' h y hy
      rw [substF] at h
      injection h with h'
      subst h'
      simp [Node.supportList] at hy
    | var i x =>
      intro t' h y hy
      rw [substF] at h
      by_cases hx : x ∈ K
      · rw [if_pos hx] at h
        cases hlk : eqs.lookup x with
        | none => rw [hlk] at h; exact Option.noConfusion h
        | some e =>
          rw [hlk] at h
          obtain ⟨z, hz, hr⟩ := ihf e t' h y hy
          refine ⟨x, by simp [Node.supportList], ?_⟩
          exact Relation.ReflTransGen.head ((dep_depsOf_iff eqs x z).2 ⟨e, hlk, hz⟩) hr
      · rw [if_neg hx] at h
        injection h with h'
        subst h'
        simp only [Node.supportList, List.mem_singleton] at hy
        subst hy
        exact ⟨y, by simp [Node.supportList], Relation.ReflTransGen.refl⟩
    | unop i op ch ih =>
      intro t' h y hy
      rw [substF] at h
      cases hc : substF eqs K (f + 1) ch with
      | none => rw [hc] at h; exact Option.noConfusion h
      | some c2 =>
        rw [hc] at h
        injection h with h'
        subst h'
        simp only [Node.supportList] at hy ⊢
        exact ih c2 hc y hy
    | binop i op a b iha ihb =>
      intro t' h y hy
      rw [substF] at h
      cases ha : substF eqs K (f + 1) a with
      | none => rw [ha] at h; exact Option.noConfusion h
      | some a2 =>
        rw [ha] at h
        cases hb : substF eqs K (f + 1) b with
        | none => rw [hb] at h; exact Option.noConfusion h
        | some b2 =>
          rw [hb] at h
          injection h with h'
          subst h'
          simp only [Node.supportList, List.mem_append] at hy ⊢
          rcases hy with hy | hy
          · obtain ⟨z, hz, hr⟩ := iha a2 ha y hy
            exact ⟨z, Or.inl hz, hr⟩
          · obtain ⟨z, hz, hr⟩ := ihb b2 hb y hy
            exact ⟨z, Or.inr hz, hr⟩

/-- With fuel bounding the recursion depth of every collapsed name in
the tree's support, the substitution never fails. -/
theorem substF_isSome (eqs : List (String × Node)) (K : List String)
    (hK : ∀ y ∈ K, (eqs.lookup y).isSome) :
    ∀ fuel t, (∀ y ∈ Node.supportList t, y ∈ K → DepthLe eqs y fuel) →
      (substF eqs K fuel t).isSome := by
  intro fuel
  induction fuel with
  | zero =>
    intro t
    induction t with
    | lit i b => intro _; rw [substF]; rfl
    | var i x =>
      intro hall
      rw [substF]
      by_cases hx : x ∈ K
      · exfalso
        obtain ⟨e, he⟩ := Option.isSome_iff_exists.1 (hK x hx)
        obtain ⟨n, hn, _⟩ :=
          depthLe_node_inv (hall x (by simp [Node.supportList]) hx) he
        omega
      · rw [if_neg hx]
        rfl
    | unop i op ch ih =>
      intro hall
      rw [substF]
      have hch := ih (fun y hy hyK => hall y (by simpa [Node.supportList] using hy) hyK)
      cases hc : substF eqs K 0 ch with
      | none => rw [hc] at hch; exact Bool.noConfusion hch
      | some c2 => rfl
    | binop i op a b iha ihb =>
      intro hall
      rw [substF]
      have ha2 := iha (fun y hy hyK =>
        hall y (by simp only [Node.supportList, List.mem_append]; exact Or.inl hy) hyK)
      have hb2 := ihb (fun y hy hyK =>
        hall y (by simp only [Node.supportList, List.mem_append]; exact Or.inr hy) hyK)
      cases ha : substF eqs K 0 a with
      | none => rw [ha] at ha2; exact Bool.noConfusion ha2
      | some a2 =>
        cases hb : substF eqs K 0 b with
        | none => rw [hb] at hb2; exact Bool.noConfusion hb2
        | some b2 => rfl
  | succ f ihf =>
    intro t
    induction t with
    | lit i b => intro _; rw [substF]; rfl
    | var i x =>
      intro hall
      rw [substF]
      by_cases hx : x ∈ K
      · rw [if_pos hx]
        obtain ⟨e, he⟩ := Option.isSome_iff_exists.1 (hK x hx)
        rw [he]
        obtain ⟨n, hn, hall2⟩ :=
          depthLe_node_inv (hall x (by simp [Node.supportList]) hx) he
        have hnf : n = f := by omega
        show (substF eqs K f e).isSome
        exact ihf e (fun y hy _ => hnf ▸ hall2 y hy)
      · rw [if_neg hx]
        rfl
    | unop i op ch ih =>
      intro hall
      rw [substF]
      have hch := ih (fun y hy hyK => hall y (by simpa [Node.supportList] using hy) hyK)
      cases hc : substF eqs K (f + 1) ch with
      | none => rw [hc] at hch; exact Bool.noConfusion hch
      | some c2 => rfl
    | binop i op a b iha ihb =>
      intro hall
      rw [substF]
      have ha2 := iha (fun y hy hyK =>
        hall y (by simp only [Node.supportList, List.mem_append]; exact Or.inl hy) hyK)
      have hb2 := ihb (fun y hy hyK =>
        hall y (by simp only [Node.supportList, List.mem_append]; exact Or.inr hy) hyK)
      cases ha : substF eqs K (f + 1) a with
      | none => rw [ha] at ha2; exact Bool.noConfusion ha2
      | some a2 =>
        cases hb : substF eqs K (f + 1) b with
        | none => rw [hb] at hb2; exact Bool.noConfusion hb2
        | some b2 => rfl

/-- Master lemma for the collapse loop of `Circuit.clean`: on an
acyclic base graph the loop never fails, keeps the key list, and keeps
every support name reachable from its key in the base graph. -/
theorem substLoop_ok (eqs0 : List (String × Node)) (K : List String)
    (hnc : ¬ ∃ x, Relation.TransGen (dep (depsOf eqs0)) x x)
    (hKk : ∀ y ∈ K, y ∈ eqs0.map Prod.fst) :
    ∀ ks eqs, (∀ a ∈ ks, a ∈ eqs0.map Prod.fst) →
      eqs.map Prod.fst = eqs0.map Prod.fst →
      (∀ x e, eqs.lookup x = some e → ∀ y ∈ e.supportList,
        Relation.TransGen (dep (depsOf eqs0)) x y) →
      ∃ eqs2, substLoop K (eqs0.length + 1) ks eqs = some eqs2 ∧
        eqs2.map Prod.fst = eqs0.map Prod.fst ∧
        (∀ x e, eqs2.lookup x = some e → ∀ y ∈ e.supportList,
          Relation.TransGen (dep (depsOf eqs0)) x y) := by
  intro ks
  induction ks with
  | nil =>
    intro eqs _ hkeys hinv
    exact ⟨eqs, rfl, hkeys, hinv⟩
  | cons k ks ih =>
    intro eqs hks hkeys hinv
    have hkmem : k ∈ eqs.map Prod.fst := by
      rw [hkeys]
      exact hks k (List.mem_cons_self _ _)
    obtain ⟨e, he⟩ := Option.isSome_iff_exists.1 ((lookup_isSome_iff eqs k).2 hkmem)
    have hdepsub : ∀ a b, dep (depsOf eqs) a b →
        Relation.TransGen (dep (depsOf eqs0)) a b := by
      intro a b hab
      obtain ⟨ea, hea, hbmem⟩ := (dep_depsOf_iff eqs a b).1 hab
      exact hinv a ea hea b hbmem
    have hncCur : ¬ ∃ x, Relation.TransGen (dep (depsOf eqs)) x x := by
      rintro ⟨x, hx⟩
      exact hnc ⟨x, transGen_lift hdepsub hx⟩
    have hlen : eqs.length = eqs0.length := by
      have h1 := congrArg List.length hkeys
      simpa using h1
    have hdall : ∀ y, DepthLe eqs y (eqs0.length + 1) := by
      intro y
      apply (depthLe_of_noCycle eqs hncCur y).mono
      calc (eqs.map Prod.fst).toFinset.card
          ≤ (eqs.map Prod.fst).length := List.toFinset_card_le _
        _ = eqs.length := List.length_map _ _
        _ ≤ eqs0.length + 1 := by omega
    have hKsome : ∀ y ∈ K, (eqs.lookup y).isSome := fun y hy =>
      (lookup_isSome_iff eqs y).2 (by rw [hkeys]; exact hKk y hy)
    obtain ⟨e2, he2⟩ := Option.isSome_iff_exists.1
      (substF_isSome eqs K hKsome (eqs0.length + 1) e (fun y _ _ => hdall y))
    have hkeys2 : (updateEq eqs k e2).map Prod.fst = eqs0.map Prod.fst := by
      rw [updateEq_keys, hkeys]
    have hinv2 : ∀ x ex, (updateEq eqs k e2).lookup x = some ex →
        ∀ y ∈ ex.supportList, Relation.TransGen (dep (depsOf eqs0)) x y := by
      intro x ex hx y hy
      by_cases hxk : x = k
      · subst hxk
        rw [lookup_updateEq_self eqs x e2 hkmem] at hx
        injection hx with hx'
        subst hx'
        obtain ⟨z, hz, hrtg⟩ := substF_supp eqs K (eqs0.length + 1) e e2 he2 y hy
        exact transGen_append (hinv x e he z hz) (reflTransGen_lift hdepsub hrtg)
      · rw [lookup_updateEq_ne eqs k e2 x hxk] at hx
        exact hinv x ex hx y hy
    obtain ⟨eqs2, hsl, hk2, hi2⟩ :=
      ih (updateEq eqs k e2) (fun a ha => hks a (List.mem_cons_of_mem _ ha)) hkeys2 hinv2
    refine ⟨eqs2, ?_, hk2, hi2⟩
    rw [substLoop, he]
    show (match substF eqs K (eqs0.length + 1) e with
      | none => none
      | some e2 => substLoop K (eqs0.length + 1) ks (updateEq eqs k e2)) = some eqs2
    rw [he2]
    exact hsl

theorem mem_relComp (cl : Finset (String × String)) (a c : String) :
    (a, c) ∈ relComp cl ↔ ∃ b, (a, b) ∈ cl ∧ (b, c) ∈ cl := by
  rw [relComp]
  simp only [Finset.mem_biUnion, Finset.mem_image, Finset.mem_filter]
  constructor
  · rintro ⟨⟨p, q⟩, hpq, ⟨u, v⟩, ⟨huv, hq1⟩, heq⟩
    injection heq with h1 h2
    subst h1
    subst h2
    refine ⟨q, hpq, ?_⟩
    have hq2 : u = q := hq1
    show (q, v) ∈ cl
    rwa [hq2] at huv
  · rintro ⟨b, h1, h2⟩
    exact ⟨(a, b), h1, (b, c), ⟨h2, rfl⟩, rfl⟩

theorem iterClosure_subset : ∀ (f : Nat) (cl : Finset (String × String)),
    cl ⊆ iterClosure f cl := by
  intro f
  induction f with
  | zero =>
    intro cl
    rw [iterClosure]
  | succ f ih =>
    intro cl
    simp only [iterClosure]
    by_cases h : cl ∪ relComp cl = cl
    · rw [if_pos h]
    · rw [if_neg h]
      exact Finset.Subset.trans Finset.subset_union_left (ih _)

/-- With the fuel `Circuit.clean` provides, the closure loop reaches its
fixed point: the result absorbs one more composition step. -/
theorem iterClosure_fix : ∀ (f : Nat) (cl : Finset (String × String)) (U : Finset String),
    cl ⊆ U ×ˢ U → (U ×ˢ U).card < f + cl.card →
    relComp (iterClosure f cl) ⊆ iterClosure f cl := by
  intro f
  induction f with
  | zero =>
    intro cl U hsub hcard
    have := Finset.card_le_card hsub
    omega
  | succ f ih =>
    intro cl U hsub hcard
    simp only [iterClosure]
    by_cases h : cl ∪ relComp cl = cl
    · rw [if_pos h]
      intro p hp
      rw [← h]
      exact Finset.mem_union_right _ hp
    · rw [if_neg h]
      apply ih (cl ∪ relComp cl) U
      · apply Finset.union_subset hsub
        intro p hp
        obtain ⟨a, c⟩ := p
        obtain ⟨b, h1, h2⟩ := (mem_relComp cl a c).1 hp
        have ha := hsub h1
        have hc := hsub h2
        rw [Finset.mem_product] at ha hc ⊢
        exact ⟨ha.1, hc.2⟩
      · have hss : cl ⊂ cl ∪ relComp cl :=
          Finset.ssubset_iff_subset_ne.2
            ⟨Finset.subset_union_left, fun hcon => h hcon.symm⟩
        have := Finset.card_lt_card hss
        omega

/-- The dead-code removal of `Circuit.clean`, applied to any equation
dict whose keys match the original and whose supports are reachable in
the original graph, yields a circuit passing all four checks. -/
theorem cleaned_check_ok (c : Circuit) (hok : c.check = .ok ()) (hwf : c.WF)
    (eqs2 : List (String × Node)) (E : Finset (String × String)) (u : Finset String)
    (CL : Finset (String × String)) (live : Finset String) (eqs3 : List (String × Node))
    (hkeys2 : eqs2.map Prod.fst = c.equations.map Prod.fst)
    (hinv2 : ∀ x e, eqs2.lookup x = some e → ∀ y ∈ e.supportList,
      Relation.TransGen (dep (depsOf c.equations)) x y)
    (hE : E = ((depsOf eqs2).flatMap (fun xys => xys.2.map (fun y => (xys.1, y)))).toFinset)
    (hu : u = E.image Prod.fst ∪ E.image Prod.snd)
    (hCL : CL = iterClosure (u.card * u.card + 1) E)
    (hlive : live = (CL.filter (fun xy => xy.1 ∈ c.outputs)).image Prod.snd)
    (heqs3 : eqs3 = eqs2.filter
      (fun ke => decide (ke.1 ∈ live ∨ ke.1 ∈ c.inputs ∨ ke.1 ∈ c.outputs))) :
    Circuit.check { c with equations := eqs3 } = .ok () := by
  have hnd2 : (eqs2.map Prod.fst).Nodup := by
    rw [hkeys2]
    exact hwf.2.2
  have hlk2 : ∀ {x : String} {e : Node}, (x, e) ∈ eqs2 → eqs2.lookup x = some e :=
    fun h => lookup_of_mem_nodup hnd2 h
  have hedge : ∀ a b : String, (a, b) ∈ E ↔
      ∃ e, eqs2.lookup a = some e ∧ b ∈ e.supportList := by
    intro a b
    rw [hE, List.mem_toFinset]
    simp only [List.mem_flatMap, List.mem_map]
    constructor
    · rintro ⟨⟨k, ys⟩, hky, y, hy, heq⟩
      injection heq with h1 h2
      subst h1
      subst h2
      rw [depsOf] at hky
      obtain ⟨⟨k2, e⟩, hmem, heq2⟩ := List.mem_map.1 hky
      injection heq2 with h3 h4
      subst h3
      subst h4
      exact ⟨e, hlk2 hmem, hy⟩
    · rintro ⟨e, hae, hbe⟩
      refine ⟨(a, e.supportList), ?_, b, hbe, rfl⟩
      rw [depsOf]
      exact List.mem_map.2 ⟨(a, e), lookup_mem hae, rfl⟩
  have hECL : E ⊆ CL := by
    rw [hCL]
    exact iterClosure_subset _ _
  have hCLtrans : ∀ a b d : String, (a, b) ∈ CL → (b, d) ∈ CL → (a, d) ∈ CL := by
    intro a b d h1 h2
    have hfix : relComp CL ⊆ CL := by
      rw [hCL]
      apply iterClosure_fix _ _ u
      · intro p hp
        rw [Finset.mem_product, hu]
        exact ⟨Finset.mem_union_left _ (Finset.mem_image.2 ⟨p, hp, rfl⟩),
          Finset.mem_union_right _ (Finset.mem_image.2 ⟨p, hp, rfl⟩)⟩
      · rw [Finset.card_product]
        omega
    exact hfix ((mem_relComp CL a d).2 ⟨b, h1, h2⟩)
  have hliveMem : ∀ y : String, y ∈ live ↔ ∃ o, o ∈ c.outputs ∧ (o, y) ∈ CL := by
    intro y
    rw [hlive]
    simp only [Finset.mem_image, Finset.mem_filter]
    constructor
    · rintro ⟨⟨o, z⟩, ⟨hmem, ho⟩, heq⟩
      have hz : z = y := heq
      subst hz
      exact ⟨o, ho, hmem⟩
    · rintro ⟨o, ho, hmem⟩
      exact ⟨(o, y), ⟨hmem, ho⟩, rfl⟩
  have hin_keys : ∀ i ∈ c.inputs, ¬ i ∈ c.equations.map Prod.fst := by
    intro i hi hmem
    have h1 := inputs_unconstrained_of_check c hok i hi
    exact (lookup_eq_none_iff _ _).1 h1 hmem
  have heqs3mem : ∀ {x : String} {e : Node}, (x, e) ∈ eqs3 ↔
      ((x, e) ∈ eqs2 ∧ (x ∈ live ∨ x ∈ c.inputs ∨ x ∈ c.outputs)) := by
    intro x e
    rw [heqs3, List.mem_filter]
    simp
  have hnd3 : (eqs3.map Prod.fst).Nodup := by
    rw [heqs3]
    exact List.Nodup.sublist ((List.filter_sublist _).map Prod.fst) hnd2
  have hsupp3 : ∀ x e, (x, e) ∈ eqs3 → ∀ y ∈ e.supportList,
      y ∈ c.inputs ∨ y ∈ eqs3.map Prod.fst := by
    intro x e hx3 y hy
    obtain ⟨hx2, hkeep⟩ := heqs3mem.1 hx3
    have hlkx2 : eqs2.lookup x = some e := hlk2 hx2
    have hsig : y ∈ c.inputs ∨ y ∈ c.equations.map Prod.fst := by
      obtain ⟨a, hlast⟩ := transGen_last (hinv2 x e hlkx2 y hy)
      obtain ⟨ea, hea, hyea⟩ := (dep_depsOf_iff c.equations a y).1 hlast
      rcases support_closed_of_check c hok a ea hea y hyea with h | h
      · exact Or.inl h
      · exact Or.inr ((lookup_isSome_iff _ _).1 h)
    rcases hsig with h | h
    · exact Or.inl h
    · right
      have hykey2 : y ∈ eqs2.map Prod.fst := by
        rw [hkeys2]
        exact h
      obtain ⟨ey, hey⟩ := Option.isSome_iff_exists.1 ((lookup_isSome_iff eqs2 y).2 hykey2)
      have hkeepy : y ∈ live ∨ y ∈ c.inputs ∨ y ∈ c.outputs := by
        by_cases hyo : y ∈ c.outputs
        · exact Or.inr (Or.inr hyo)
        · left
          have hxy : (x, y) ∈ CL := hECL ((hedge x y).2 ⟨e, hlkx2, hy⟩)
          rcases hkeep with hxl | hxi | hxo
          · obtain ⟨o, ho, hoxCL⟩ := (hliveMem x).1 hxl
            exact (hliveMem y).2 ⟨o, ho, hCLtrans o x y hoxCL hxy⟩
          · exfalso
            apply hin_keys x hxi
            rw [← hkeys2]
            exact List.mem_map.2 ⟨(x, e), hx2, rfl⟩
          · exact (hliveMem y).2 ⟨x, hxo, hxy⟩
      exact List.mem_map.2 ⟨(y, ey), heqs3mem.2 ⟨lookup_mem hey, hkeepy⟩, rfl⟩
  have hdep3 : ∀ a b, dep (depsOf eqs3) a b →
      Relation.TransGen (dep (depsOf c.equations)) a b := by
    intro a b hab
    obtain ⟨ea, hea, hbmem⟩ := (dep_depsOf_iff eqs3 a b).1 hab
    exact hinv2 a ea (hlk2 (heqs3mem.1 (lookup_mem hea)).1) b hbmem
  have hnc3 : ¬ ∃ x, Relation.TransGen (dep (depsOf eqs3)) x x := by
    rintro ⟨x, hx⟩
    exact (noCycle_of_check_ok c hok) ⟨x, transGen_lift hdep3 hx⟩
  apply check_ok_of_parts
  · rw [Circuit.firstUndefinedOutput]
    apply List.find?_eq_none.2
    intro o ho
    have hkey0 : o ∈ c.equations.map Prod.fst :=
      (lookup_isSome_iff _ _).1 (outputs_defined_of_check c hok o ho)
    have hkey2 : o ∈ eqs2.map Prod.fst := by
      rw [hkeys2]
      exact hkey0
    obtain ⟨e, he⟩ := Option.isSome_iff_exists.1 ((lookup_isSome_iff eqs2 o).2 hkey2)
    have h3 : (o, e) ∈ eqs3 := heqs3mem.2 ⟨lookup_mem he, Or.inr (Or.inr ho)⟩
    have hl3 : eqs3.lookup o = some e := lookup_of_mem_nodup hnd3 h3
    simp [hl3]
  · rw [Circuit.firstConstrainedInput]
    apply List.find?_eq_none.2
    intro i hi
    cases hl : eqs3.lookup i with
    | none => simp [hl]
    | some e =>
      exfalso
      apply hin_keys i hi
      rw [← hkeys2]
      exact List.mem_map.2 ⟨(i, e), (heqs3mem.1 (lookup_mem hl)).1, rfl⟩
  · rw [Circuit.firstUndefinedSignal]
    apply List.findSome?_eq_none_iff.2
    rintro ⟨k, ys⟩ hmem
    apply List.find?_eq_none.2
    intro y hy
    rw [depsOf] at hmem
    obtain ⟨⟨k2, e⟩, hke, heq2⟩ := List.mem_map.1 hmem
    injection heq2 with h3 h4
    subst h3
    subst h4
    rcases hsupp3 k2 e hke y hy with h | h
    · simp [Circuit.isSignal, h]
    · have : (eqs3.lookup y).isSome := (lookup_isSome_iff _ _).2 h
      simp [Circuit.isSignal, this]
  · exact hnc3

/-- C9.  `clean()` preserves validity: on every circuit that passed
construction-time validation, the cleanup pass terminates (never
exhausts the inlining recursion), keeps the interface, and leaves the
circuit satisfying all four construction invariants of `Circuit.check`:
every output defined, no input constrained, every support name a
declared signal, and an acyclic dependency graph. -/
theorem claim_C9_clean_preserves_validity (c : Circuit) (hok : c.check = .ok ())
    (hwf : c.WF) :
    ∃ c2, c.clean = some c2 ∧ c2.inputs = c.inputs ∧ c2.outputs = c.outputs ∧
      c2.check = .ok () := by
  have hinv0 : ∀ x e, c.equations.lookup x = some e → ∀ y ∈ e.supportList,
      Relation.TransGen (dep (depsOf c.equations)) x y := by
    intro x e hx y hy
    exact Relation.TransGen.single ((dep_depsOf_iff c.equations x y).2 ⟨e, hx, hy⟩)
  obtain ⟨eqs2, hsl, hkeys2, hinv2⟩ :=
    substLoop_ok c.equations (collapseList c) (noCycle_of_check_ok c hok)
      (collapse_subset_keys c hok) (c.equations.map Prod.fst) c.equations
      (fun a ha => ha) rfl hinv0
  have hmain := cleaned_check_ok c hok hwf eqs2 _ _ _ _ _ hkeys2 hinv2 rfl rfl rfl rfl rfl
  refine ⟨_, ?_, ?_, ?_, hmain⟩
  · simp only [Circuit.clean]
    rw [hsl]
  · rfl
  · rfl

theorem claim_C9_clean_preserves_validity_witness :
    ∃ c2, exAnd.clean = some c2 ∧ c2.inputs = exAnd.inputs ∧
      c2.outputs = exAnd.outputs ∧ c2.check = .ok () :=
  claim_C9_clean_preserves_validity exAnd rfl (by decide)

end SE206
